import Mathlib

/-!
# Match rules of the bus daemon (`bus/matchrule.c`)

A shallow embedding of the rule tokenizer (`find_key`, `find_value`,
`tokenize_rule`), of the rule constructor `bus_match_rule_new` with its setters,
and of `bus_match_rule_match`, followed by the properties proved about them.

A C string is modelled by the list of its characters; the terminating NUL is
implicit at the end of the list, and a `'\0'` inside the list terminates the
string just as it would in memory.  The code compares characters with ASCII
constants only, so a `Char` stands for one `gchar`.
-/

namespace MatchRule

/-- How a call of a C function of the file ends. -/
inductive Res (α : Type) where
  /-- The function returned the value. -/
  | ok (a : α) : Res α
  /-- The function returned `NULL`. -/
  | null : Res α
  /-- The function did not return: the execution left the defined behaviour
  of C (a read past the terminating NUL of the text, a `NULL` pointer
  dereferenced) or a `g_assert` failed. -/
  | undefined : Res α
  /-- The loop budget of the model ran out (never the case for `tokenize_rule`,
  see `tokenize_rule_fuel`). -/
  | nofuel : Res α
  deriving DecidableEq, Repr

/-- `struct _Token`: a key and a value. -/
structure Token where
  key : List Char
  value : List Char
  deriving DecidableEq, Repr

/-- `struct _BusArg`. -/
structure BusArg where
  len : Nat
  value : List Char
  deriving DecidableEq, Repr

/-- The character under the cursor, `*p`: the head of what is left of the
text, and the terminating NUL when nothing is left. -/
def peek (p : List Char) : Char :=
  p.headD '\x00'

/-- `SKIP_WHITE(a)`: `while (*(a) == ' ' || *(a) == '\t') { (a)++; }`. -/
def SKIP_WHITE : List Char → List Char
  | [] => []
  | c :: p => if c = ' ' ∨ c = '\t' then SKIP_WHITE p else c :: p

/-- `IS_ALPHA(a)`. -/
def IS_ALPHA (c : Char) : Bool :=
  (c ≥ 'a' && c ≤ 'z') || (c ≥ 'A' && c ≤ 'Z')

/-- `IS_NUMBER(a)`. -/
def IS_NUMBER (c : Char) : Bool :=
  c ≥ '0' && c ≤ '9'

/-- The `while (IS_ALPHA (*p) || IS_NUMBER (*p))` loop of `find_key`: `text` is
the `GString` being filled; returns it with the cursor. -/
def find_key_loop (text : List Char) : List Char → List Char × List Char
  | [] => (text, [])
  | c :: p =>
    if IS_ALPHA c || IS_NUMBER c then find_key_loop (text ++ [c]) p
    else (text, c :: p)

/-- `find_key (&p)`: the key and the moved cursor, or `none` for `NULL`. -/
def find_key (p : List Char) : Option (List Char × List Char) :=
  match SKIP_WHITE p with
  | [] => none
  | c :: q =>
    if !IS_ALPHA c then none
    else some (find_key_loop [c] q)

/-- The `while (**p != '\'')` loop of `find_value`.  After a backslash the
cursor is moved without a test: when the backslash was the last character of
the text, the NUL is appended and the cursor leaves the text. -/
def find_value_loop (text : List Char) : List Char → Res (List Char × List Char)
  | [] => .null
  | c :: p =>
    if c = '\'' then .ok (text, p)
    else if c = '\x00' then .null
    else if c = '\\' then
      match p with
      | [] => .undefined
      | d :: q => if d = '\x00' then .undefined else find_value_loop (text ++ [d]) q
    else find_value_loop (text ++ [c]) p

/-- `find_value (&p)`. -/
def find_value (p : List Char) : Res (List Char × List Char) :=
  match SKIP_WHITE p with
  | [] => .null
  | c :: q =>
    if c ≠ '\'' then .null
    else find_value_loop [] q

/-- The `while (*p != '\0')` loop of `tokenize_rule`, one iteration for each
unit of `fuel`; `tokens` is the array filled so far.  Every `goto failed`
frees the tokens and returns `NULL`. -/
def tokenize_loop : Nat → List Char → List Token → Res (List Token)
  | 0, _, _ => .nofuel
  | fuel + 1, p, tokens =>
    if peek p = '\x00' then .ok tokens
    else
      match find_key (SKIP_WHITE p) with
      | none => .null
      | some (key, p) =>
        if peek (SKIP_WHITE p) ≠ '=' then .null
        else
          match find_value (SKIP_WHITE (SKIP_WHITE p).tail) with
          | .null => .null
          | .undefined => .undefined
          | .nofuel => .nofuel
          | .ok (value, p) =>
            if peek (SKIP_WHITE p) ≠ ',' ∧ peek (SKIP_WHITE p) ≠ '\x00' then .null
            else
              tokenize_loop fuel
                (if peek (SKIP_WHITE p) = ',' then (SKIP_WHITE p).tail else SKIP_WHITE p)
                (tokens ++ [⟨key, value⟩])

/-- `tokenize_rule (text)`: every iteration of the loop moves the cursor, so
one iteration for each character and one more for the final test are enough. -/
def tokenize_rule (text : List Char) : Res (List Token) :=
  tokenize_loop (text.length + 1) text []

/-- The loop of `tokenize_rule` entered with the cursor on `p` and the tokens
`tokens` in the array, with the budget that is enough for `p`. -/
def tokenize_from (p : List Char) (tokens : List Token) : Res (List Token) :=
  tokenize_loop (p.length + 1) p tokens

/-- Modelled from the spec: the message kinds of `dbus/dbus.h`, which is not
part of the sources: the sentinel for an unset kind. -/
def DBUS_MESSAGE_TYPE_INVALID : Int := 0

/-- Modelled from the spec: the message kinds of `dbus/dbus.h`: a method call. -/
def DBUS_MESSAGE_TYPE_METHOD_CALL : Int := 1

/-- Modelled from the spec: the message kinds of `dbus/dbus.h`: a method return. -/
def DBUS_MESSAGE_TYPE_METHOD_RETURN : Int := 2

/-- Modelled from the spec: the message kinds of `dbus/dbus.h`: an error. -/
def DBUS_MESSAGE_TYPE_ERROR : Int := 3

/-- Modelled from the spec: the message kinds of `dbus/dbus.h`: a signal. -/
def DBUS_MESSAGE_TYPE_SIGNAL : Int := 4

/-- Modelled from the spec: `struct _BusMatchRule` of `matchrule.h`, which is
not part of the sources, with the fields `matchrule.c` reads and writes.  A
string field is `none` for a `NULL` pointer. -/
structure BusMatchRule where
  refcount : Int
  message_type : Int
  interface : Option (List Char)
  member : Option (List Char)
  sender : Option (List Char)
  destination : Option (List Char)
  path : Option (List Char)
  args : List BusArg
  deriving DecidableEq, Repr

/-- Modelled from the spec: the read-only view of a `DBusMessage` (section 6):
its kind, its optional string fields and its string arguments. -/
structure DBusMessage where
  kind : Int
  sender : Option (List Char)
  interface : Option (List Char)
  member : Option (List Char)
  path : Option (List Char)
  destination : Option (List Char)
  arguments : List (List Char)
  deriving DecidableEq, Repr

/-- `bus_match_rule_set_message_type (rule, type)`; a failed `g_assert` on the
kind ends the execution. -/
def bus_match_rule_set_message_type (rule : BusMatchRule) (type : Int) :
    Res (Bool × BusMatchRule) :=
  if type = DBUS_MESSAGE_TYPE_SIGNAL ∨ type = DBUS_MESSAGE_TYPE_METHOD_CALL ∨
      type = DBUS_MESSAGE_TYPE_METHOD_RETURN ∨ type = DBUS_MESSAGE_TYPE_ERROR then
    .ok (true, { rule with message_type := type })
  else .undefined

/-- `bus_match_rule_set_sender (rule, sender)`. -/
def bus_match_rule_set_sender (rule : BusMatchRule) (sender : List Char) :
    Bool × BusMatchRule :=
  (true, { rule with sender := some sender })

/-- `bus_match_rule_set_interface (rule, interface)`. -/
def bus_match_rule_set_interface (rule : BusMatchRule) (interface : List Char) :
    Bool × BusMatchRule :=
  (true, { rule with interface := some interface })

/-- `bus_match_rule_set_member (rule, member)`. -/
def bus_match_rule_set_member (rule : BusMatchRule) (member : List Char) :
    Bool × BusMatchRule :=
  (true, { rule with member := some member })

/-- `bus_match_rule_set_path (rule, path)`. -/
def bus_match_rule_set_path (rule : BusMatchRule) (path : List Char) :
    Bool × BusMatchRule :=
  (true, { rule with path := some path })

/-- `bus_match_rule_set_destination (rule, dest)`. -/
def bus_match_rule_set_destination (rule : BusMatchRule) (dest : List Char) :
    Bool × BusMatchRule :=
  (true, { rule with destination := some dest })

/-- `bus_match_rule_set_arg (rule, arg_index, arg)`. -/
def bus_match_rule_set_arg (rule : BusMatchRule) (_arg_index : Nat) (_arg : List Char) :
    Bool × BusMatchRule :=
  (true, rule)

/-- `bus_match_rule_match (rule, message)`. -/
def bus_match_rule_match (_rule : BusMatchRule) (_message : DBusMessage) : Bool :=
  false

/-- `bus_match_rule_match (rule, message)` with the rule as the call leaves
it: the body holds two assertions and `return FALSE`, nothing is written
through `rule`. -/
def bus_match_rule_match_run (rule : BusMatchRule) (message : DBusMessage) :
    Bool × BusMatchRule :=
  (bus_match_rule_match rule message, rule)

/-- The rule after a call of `bus_match_rule_set_message_type` whose result
the caller does not look at. -/
def afterSet : Res (Bool × BusMatchRule) → Res BusMatchRule
  | .ok (_, rule) => .ok rule
  | .null => .null
  | .undefined => .undefined
  | .nofuel => .nofuel

/-- The body of the `for` loop of `bus_match_rule_new` for one token: the rule
to go on with, or `NULL` after `goto failed` (the rule is released). -/
def bus_match_rule_new_body (rule : BusMatchRule) (token : Token) : Res BusMatchRule :=
  if token.key = "type".toList then
    if token.value = "signal".toList then
      afterSet (bus_match_rule_set_message_type rule DBUS_MESSAGE_TYPE_SIGNAL)
    else if token.value = "method_call".toList then
      afterSet (bus_match_rule_set_message_type rule DBUS_MESSAGE_TYPE_METHOD_CALL)
    else if token.value = "method_return".toList then
      afterSet (bus_match_rule_set_message_type rule DBUS_MESSAGE_TYPE_METHOD_RETURN)
    else if token.value = "error".toList then
      afterSet (bus_match_rule_set_message_type rule DBUS_MESSAGE_TYPE_ERROR)
    else .null
  else if token.key = "sender".toList then
    .ok (bus_match_rule_set_sender rule token.value).2
  else if token.key = "interface".toList then
    .ok (bus_match_rule_set_interface rule token.value).2
  else if token.key = "member".toList then
    .ok (bus_match_rule_set_member rule token.value).2
  else if token.key = "path".toList then
    .ok (bus_match_rule_set_path rule token.value).2
  else if token.key = "destination".toList then
    .ok (bus_match_rule_set_destination rule token.value).2
  else .ok rule

/-- The `for (i = 0; i < tokens->len; i++)` loop of `bus_match_rule_new`. -/
def bus_match_rule_new_loop : List Token → BusMatchRule → Res BusMatchRule
  | [], rule => .ok rule
  | token :: tokens, rule =>
    match bus_match_rule_new_body rule token with
    | .ok rule => bus_match_rule_new_loop tokens rule
    | .null => .null
    | .undefined => .undefined
    | .nofuel => .nofuel

/-- The rule that `bus_match_rule_new` starts from: `g_slice_new0`, then
`refcount = 1`, `message_type = DBUS_MESSAGE_TYPE_INVALID` and an empty
argument array. -/
def newRule : BusMatchRule :=
  { refcount := 1, message_type := DBUS_MESSAGE_TYPE_INVALID, interface := none,
    member := none, sender := none, destination := none, path := none, args := [] }

/-- `bus_match_rule_new (text)`.  The result of `tokenize_rule` is used
without a test: `tokens->len` dereferences `NULL` when the tokenizer failed. -/
def bus_match_rule_new (text : List Char) : Res BusMatchRule :=
  match tokenize_rule text with
  | .ok tokens => bus_match_rule_new_loop tokens newRule
  | .null => .undefined
  | .undefined => .undefined
  | .nofuel => .nofuel

/-! ## The words of the specification -/

/-- A key of the grammar: an ASCII letter followed by ASCII letters and digits. -/
def validKey : List Char → Bool
  | [] => false
  | c :: cs => c.isAlpha && cs.all Char.isAlphanum

/-- One character of a value as it is written between the quotes: a quote and
a backslash are preceded by a backslash. -/
def escapeChar (c : Char) : List Char :=
  if c = '\'' ∨ c = '\\' then ['\\', c] else [c]

/-- A value as it is written between the quotes. -/
def escapeValue : List Char → List Char
  | [] => []
  | c :: v => escapeChar c ++ escapeValue v

/-- The text `key='value'` of one pair. -/
def pairText (t : Token) : List Char :=
  t.key ++ '=' :: '\'' :: (escapeValue t.value ++ ['\''])

/-- The rule text of a list of pairs: the pair texts joined with `,`. -/
def ruleText : List Token → List Char
  | [] => []
  | [t] => pairText t
  | t :: u :: ts => pairText t ++ ',' :: ruleText (u :: ts)

/-- A space or a tab. -/
def isWhite (c : Char) : Bool :=
  c = ' ' ∨ c = '\t'

/-- The names of the four message kinds. -/
def kindNames : List (List Char) :=
  ["signal".toList, "method_call".toList, "method_return".toList, "error".toList]

/-- The message kind that a name stands for. -/
def kindOfName (v : List Char) : Int :=
  if v = "signal".toList then DBUS_MESSAGE_TYPE_SIGNAL
  else if v = "method_call".toList then DBUS_MESSAGE_TYPE_METHOD_CALL
  else if v = "method_return".toList then DBUS_MESSAGE_TYPE_METHOD_RETURN
  else if v = "error".toList then DBUS_MESSAGE_TYPE_ERROR
  else DBUS_MESSAGE_TYPE_INVALID

/-- The value of the last token with key `k`, if there is one. -/
def lastValue (k : List Char) (tokens : List Token) : Option (List Char) :=
  ((tokens.filter (fun t => t.key = k)).getLast?).map Token.value

/-- The keys that `bus_match_rule_new` looks at. -/
def knownKeys : List (List Char) :=
  ["type".toList, "sender".toList, "interface".toList, "member".toList, "path".toList,
    "destination".toList]

/-- The tokens of a result, put after the tokens `acc` that were read before. -/
def prepend (acc : List Token) : Res (List Token) → Res (List Token)
  | .ok ts => .ok (acc ++ ts)
  | .null => .null
  | .undefined => .undefined
  | .nofuel => .nofuel

/-- A pair together with the runs of spaces and tabs written around it:
before the key, between the key and the `=`, between the `=` and the opening
quote, and after the closing quote. -/
structure Spaced where
  beforeKey : List Char
  beforeEq : List Char
  beforeQuote : List Char
  afterQuote : List Char
  token : Token
  deriving DecidableEq, Repr

/-- The four runs around a pair hold spaces and tabs only. -/
def Spaced.whiteRuns (s : Spaced) : Bool :=
  s.beforeKey.all MatchRule.isWhite && s.beforeEq.all MatchRule.isWhite &&
    s.beforeQuote.all MatchRule.isWhite && s.afterQuote.all MatchRule.isWhite

/-- The text of one pair with its white space. -/
def spacedPairText (s : Spaced) : List Char :=
  s.beforeKey ++ (s.token.key ++ (s.beforeEq ++ '=' :: (s.beforeQuote ++
    '\'' :: (escapeValue s.token.value ++ '\'' :: s.afterQuote))))

/-- The rule text of a list of pairs with their white space, joined with `,`. -/
def spacedRuleText : List Spaced → List Char
  | [] => []
  | [s] => spacedPairText s
  | s :: u :: ss => spacedPairText s ++ ',' :: spacedRuleText (u :: ss)

/-- Some backslash of the text is directly followed by the end of the text. -/
def backslashAtEnd : List Char → Bool
  | [] => false
  | c :: p => (c = '\\' && peek p = '\x00') || backslashAtEnd p

/-! ## Characters and white space -/

theorem IS_ALPHA_eq (c : Char) : IS_ALPHA c = c.isAlpha := by
  simp [IS_ALPHA, Char.isAlpha, Char.isUpper, Char.isLower, Char.le_def, Bool.or_comm]

theorem IS_NUMBER_eq (c : Char) : IS_NUMBER c = c.isDigit := by
  simp [IS_NUMBER, Char.isDigit, Char.le_def]

theorem IS_ALPHA_or_IS_NUMBER (c : Char) : (IS_ALPHA c || IS_NUMBER c) = c.isAlphanum := by
  rw [IS_ALPHA_eq, IS_NUMBER_eq, Char.isAlphanum]

@[simp] theorem peek_nil : peek [] = '\x00' := rfl

@[simp] theorem peek_cons (c : Char) (p : List Char) : peek (c :: p) = c := rfl

theorem isWhite_iff (c : Char) : isWhite c = true ↔ c = ' ' ∨ c = '\t' := by
  simp [isWhite]

theorem SKIP_WHITE_eq_dropWhile (p : List Char) : SKIP_WHITE p = p.dropWhile isWhite := by
  induction p with
  | nil => rfl
  | cons c p ih =>
    by_cases h : c = ' ' ∨ c = '\t'
    · rw [SKIP_WHITE, if_pos h, ih, List.dropWhile_cons_of_pos ((isWhite_iff c).2 h)]
    · have hw : ¬ isWhite c = true := fun hc => h ((isWhite_iff c).1 hc)
      rw [SKIP_WHITE, if_neg h, List.dropWhile_cons_of_neg hw]

theorem SKIP_WHITE_append (w r : List Char) (hw : ∀ c ∈ w, isWhite c = true) :
    SKIP_WHITE (w ++ r) = SKIP_WHITE r := by
  induction w with
  | nil => rfl
  | cons c w ih =>
    have hc : c = ' ' ∨ c = '\t' := (isWhite_iff c).1 (hw c (List.mem_cons_self c w))
    rw [List.cons_append, SKIP_WHITE, if_pos hc]
    exact ih (fun d hd => hw d (List.mem_cons_of_mem c hd))

theorem SKIP_WHITE_cons_of_not (c : Char) (r : List Char) (hc : isWhite c = false) :
    SKIP_WHITE (c :: r) = c :: r := by
  have h : ¬ (c = ' ' ∨ c = '\t') := fun h => by simp [(isWhite_iff c).2 h] at hc
  rw [SKIP_WHITE, if_neg h]

theorem SKIP_WHITE_of_peek (r : List Char) (hr : isWhite (peek r) = false) :
    SKIP_WHITE r = r := by
  cases r with
  | nil => rfl
  | cons c r => exact SKIP_WHITE_cons_of_not c r hr

theorem SKIP_WHITE_length_le (p : List Char) : (SKIP_WHITE p).length ≤ p.length := by
  induction p with
  | nil => simp [SKIP_WHITE]
  | cons c p ih =>
    rw [SKIP_WHITE]
    split
    · exact Nat.le_succ_of_le ih
    · exact Nat.le_refl _

theorem peek_SKIP_WHITE_not_white (p : List Char) : isWhite (peek (SKIP_WHITE p)) = false := by
  induction p with
  | nil => decide
  | cons c p ih =>
    rw [SKIP_WHITE]
    split
    · exact ih
    · rename_i h
      rw [peek_cons]
      cases hc : isWhite c with
      | false => rfl
      | true => exact absurd ((isWhite_iff c).1 hc) h

theorem SKIP_WHITE_idem (p : List Char) : SKIP_WHITE (SKIP_WHITE p) = SKIP_WHITE p :=
  SKIP_WHITE_of_peek _ (peek_SKIP_WHITE_not_white p)

theorem tail_length_le (p : List Char) : p.tail.length ≤ p.length := by
  cases p <;> simp

theorem isAlpha_not_white {c : Char} (hc : c.isAlpha = true) : isWhite c = false := by
  cases hw : isWhite c with
  | false => rfl
  | true =>
    rcases (isWhite_iff c).1 hw with h | h <;> subst h <;> exact absurd hc (by decide)

/-! ## `find_key` -/

theorem find_key_loop_append (cs : List Char) (hcs : ∀ c ∈ cs, c.isAlphanum = true)
    (r : List Char) (hr : (peek r).isAlphanum = false) (text : List Char) :
    find_key_loop text (cs ++ r) = (text ++ cs, r) := by
  induction cs generalizing text with
  | nil =>
    cases r with
    | nil => simp [find_key_loop]
    | cons d r =>
      rw [peek_cons] at hr
      simp [find_key_loop, IS_ALPHA_or_IS_NUMBER, hr]
  | cons c cs ih =>
    have hc : c.isAlphanum = true := hcs c (List.mem_cons_self c cs)
    rw [List.cons_append, find_key_loop, IS_ALPHA_or_IS_NUMBER, if_pos hc,
      ih (fun d hd => hcs d (List.mem_cons_of_mem c hd))]
    simp

theorem validKey_iff (k : List Char) :
    validKey k = true ↔
      ∃ c cs, k = c :: cs ∧ c.isAlpha = true ∧ ∀ d ∈ cs, d.isAlphanum = true := by
  cases k with
  | nil => simp [validKey]
  | cons c cs =>
    simp only [validKey, Bool.and_eq_true, List.all_eq_true]
    constructor
    · rintro ⟨hc, hcs⟩
      exact ⟨c, cs, rfl, hc, hcs⟩
    · rintro ⟨c', cs', h, hc, hcs⟩
      cases h
      exact ⟨hc, hcs⟩

/-- On a valid key followed by a character that is neither a letter nor a
digit (or by the end of the text), `find_key` returns the key and stops
right after it. -/
theorem find_key_valid (k r : List Char) (hk : validKey k = true)
    (hr : (peek r).isAlphanum = false) : find_key (k ++ r) = some (k, r) := by
  obtain ⟨c, cs, rfl, hc, hcs⟩ := (validKey_iff k).1 hk
  rw [find_key, List.cons_append, SKIP_WHITE_cons_of_not c _ (isAlpha_not_white hc)]
  simp only [IS_ALPHA_eq, hc, Bool.not_true, Bool.false_eq_true, if_false]
  rw [find_key_loop_append cs hcs r hr]
  simp

theorem find_key_loop_length (text p : List Char) :
    (find_key_loop text p).2.length ≤ p.length := by
  induction p generalizing text with
  | nil => simp [find_key_loop]
  | cons c p ih =>
    rw [find_key_loop]
    split
    · exact Nat.le_succ_of_le (ih _)
    · exact Nat.le_refl _

theorem find_key_length (p key q : List Char) (h : find_key p = some (key, q)) :
    q.length < p.length := by
  have hs := SKIP_WHITE_length_le p
  rw [find_key] at h
  split at h
  · exact absurd h (by simp)
  · rename_i c r hr
    rw [hr] at hs
    split at h
    · exact absurd h (by simp)
    · have hq : q = (find_key_loop [c] r).2 := by
        have := congrArg Prod.snd (Option.some.inj h)
        exact this.symm
      have := find_key_loop_length [c] r
      rw [hq]
      simp only [List.length_cons] at hs
      omega

/-- A failed `find_key`: the first character after the white space is not a
letter. -/
theorem find_key_none (p : List Char) (hp : (peek (SKIP_WHITE p)).isAlpha = false) :
    find_key p = none := by
  rw [find_key]
  split
  · rfl
  · rename_i c q hq
    rw [hq, peek_cons] at hp
    simp [IS_ALPHA_eq, hp]

/-! ## `find_value` -/

theorem find_value_loop_nil (text : List Char) : find_value_loop text [] = .null := by
  rw [find_value_loop.eq_def]

theorem find_value_loop_cons (text : List Char) (c : Char) (p : List Char) :
    find_value_loop text (c :: p) =
      if c = '\'' then .ok (text, p)
      else if c = '\x00' then .null
      else if c = '\\' then
        match p with
        | [] => .undefined
        | d :: q => if d = '\x00' then .undefined else find_value_loop (text ++ [d]) q
      else find_value_loop (text ++ [c]) p := by
  rw [find_value_loop.eq_def]

theorem find_value_loop_escapeChar (c : Char) (hc : c ≠ '\x00') (text r : List Char) :
    find_value_loop text (escapeChar c ++ r) = find_value_loop (text ++ [c]) r := by
  by_cases h : c = '\'' ∨ c = '\\'
  · rw [escapeChar, if_pos h]
    simp only [List.cons_append, List.nil_append]
    rw [find_value_loop_cons]
    simp only [show ('\\' : Char) ≠ '\'' by decide, show ('\\' : Char) ≠ '\x00' by decide,
      if_false, if_true, hc]
  · rw [escapeChar, if_neg h]
    simp only [List.cons_append, List.nil_append]
    rw [find_value_loop_cons]
    have h1 : c ≠ '\'' := fun e => h (Or.inl e)
    have h2 : c ≠ '\\' := fun e => h (Or.inr e)
    simp only [h1, h2, hc, if_false]

/-- Reading an escaped value up to its closing quote gives the value back. -/
theorem find_value_loop_escapeValue (v : List Char) (hv : ∀ c ∈ v, c ≠ '\x00')
    (text r : List Char) :
    find_value_loop text (escapeValue v ++ '\'' :: r) = .ok (text ++ v, r) := by
  induction v generalizing text with
  | nil => rw [escapeValue, List.nil_append, find_value_loop_cons, if_pos rfl, List.append_nil]
  | cons c v ih =>
    rw [escapeValue, List.append_assoc,
      find_value_loop_escapeChar c (hv c (List.mem_cons_self c v)),
      ih (fun d hd => hv d (List.mem_cons_of_mem c hd))]
    simp

theorem find_value_quoted (v : List Char) (hv : ∀ c ∈ v, c ≠ '\x00') (r : List Char) :
    find_value ('\'' :: (escapeValue v ++ '\'' :: r)) = .ok (v, r) := by
  rw [find_value, SKIP_WHITE_cons_of_not _ _ (by decide)]
  simp only [ne_eq, not_true_eq_false, if_false]
  rw [find_value_loop_escapeValue v hv]
  simp

theorem find_value_loop_length (n : Nat) :
    ∀ (p text v q : List Char), p.length ≤ n → find_value_loop text p = .ok (v, q) →
      q.length < p.length := by
  induction n with
  | zero =>
    intro p text v q hn h
    cases p with
    | nil => simp [find_value_loop_nil] at h
    | cons c p => simp at hn
  | succ n ih =>
    intro p text v q hn h
    cases p with
    | nil => simp [find_value_loop_nil] at h
    | cons c p =>
      rw [find_value_loop_cons] at h
      simp only [List.length_cons, Nat.add_le_add_iff_right] at hn
      split at h
      · cases h
        simp
      · split at h
        · exact absurd h (by simp)
        · split at h
          · cases p with
            | nil => exact absurd h (by simp)
            | cons d p' =>
              simp only at h
              split at h
              · exact absurd h (by simp)
              · have := ih p' _ v q (by simp only [List.length_cons] at hn; omega) h
                simp only [List.length_cons]
                omega
          · have := ih p _ v q hn h
            simp only [List.length_cons]
            omega

theorem find_value_length (p v q : List Char) (h : find_value p = .ok (v, q)) :
    q.length < p.length := by
  have hs := SKIP_WHITE_length_le p
  rw [find_value] at h
  split at h
  · exact absurd h (by simp)
  · rename_i c r hr
    rw [hr] at hs
    split at h
    · exact absurd h (by simp)
    · have := find_value_loop_length r.length r [] v q (Nat.le_refl _) h
      simp only [List.length_cons] at hs
      omega

theorem find_value_loop_ne_nofuel (n : Nat) :
    ∀ (p text : List Char), p.length ≤ n → find_value_loop text p ≠ .nofuel := by
  induction n with
  | zero =>
    intro p text hn
    cases p with
    | nil => simp [find_value_loop_nil]
    | cons c p => simp at hn
  | succ n ih =>
    intro p text hn
    cases p with
    | nil => simp [find_value_loop_nil]
    | cons c p =>
      simp only [List.length_cons, Nat.add_le_add_iff_right] at hn
      rw [find_value_loop_cons]
      split
      · simp
      · split
        · simp
        · split
          · cases p with
            | nil => simp
            | cons d p' =>
              simp only
              split
              · simp
              · exact ih p' _ (by simp only [List.length_cons] at hn; omega)
          · exact ih p _ hn

theorem find_value_ne_nofuel (p : List Char) : find_value p ≠ .nofuel := by
  rw [find_value]
  split
  · simp
  · split
    · simp
    · exact find_value_loop_ne_nofuel _ _ _ (Nat.le_refl _)

/-- A failed `find_value`: the first character after the white space is not a
quote. -/
theorem find_value_null (p : List Char) (hp : peek (SKIP_WHITE p) ≠ '\'') :
    find_value p = .null := by
  rw [find_value]
  split
  · rfl
  · rename_i c q hq
    rw [hq, peek_cons] at hp
    simp [hp]

/-! ## `tokenize_rule` -/

theorem tokenize_loop_succ (fuel : Nat) (p : List Char) (tokens : List Token) :
    tokenize_loop (fuel + 1) p tokens =
      if peek p = '\x00' then .ok tokens
      else
        match find_key (SKIP_WHITE p) with
        | none => .null
        | some (key, p) =>
          if peek (SKIP_WHITE p) ≠ '=' then .null
          else
            match find_value (SKIP_WHITE (SKIP_WHITE p).tail) with
            | .null => .null
            | .undefined => .undefined
            | .nofuel => .nofuel
            | .ok (value, p) =>
              if peek (SKIP_WHITE p) ≠ ',' ∧ peek (SKIP_WHITE p) ≠ '\x00' then .null
              else
                tokenize_loop fuel
                  (if peek (SKIP_WHITE p) = ',' then (SKIP_WHITE p).tail else SKIP_WHITE p)
                  (tokens ++ [⟨key, value⟩]) := by
  rw [tokenize_loop]

theorem pairText_append (t : Token) (r : List Char) :
    pairText t ++ r = t.key ++ '=' :: '\'' :: (escapeValue t.value ++ '\'' :: r) := by
  simp [pairText]

theorem validKey_peek (k r : List Char) (hk : validKey k = true) :
    (peek (k ++ r)).isAlpha = true := by
  obtain ⟨c, cs, rfl, hc, -⟩ := (validKey_iff k).1 hk
  exact hc

theorem isAlpha_ne_nul {c : Char} (hc : c.isAlpha = true) : c ≠ '\x00' := by
  intro h
  subst h
  exact absurd hc (by decide)

/-- One iteration of the tokenizer on a well-formed pair `key='value'`
followed by `r`: the pair is read as one token and the loop goes on from what
follows the white space of `r`, which has to be a `,` or the end. -/
theorem tokenize_loop_pair (t : Token) (hk : validKey t.key = true)
    (hv : ∀ c ∈ t.value, c ≠ '\x00') (r : List Char) (fuel : Nat) (tokens : List Token) :
    tokenize_loop (fuel + 1) (pairText t ++ r) tokens =
      if peek (SKIP_WHITE r) ≠ ',' ∧ peek (SKIP_WHITE r) ≠ '\x00' then .null
      else
        tokenize_loop fuel
          (if peek (SKIP_WHITE r) = ',' then (SKIP_WHITE r).tail else SKIP_WHITE r)
          (tokens ++ [t]) := by
  have h0 := validKey_peek t.key ('=' :: '\'' :: (escapeValue t.value ++ '\'' :: r)) hk
  rw [tokenize_loop_succ, pairText_append, if_neg (isAlpha_ne_nul h0),
    SKIP_WHITE_of_peek _ (isAlpha_not_white h0),
    find_key_valid t.key _ hk (by rw [peek_cons]; decide)]
  simp only
  rw [SKIP_WHITE_cons_of_not _ _ (by decide), peek_cons, List.tail_cons,
    SKIP_WHITE_cons_of_not _ _ (by decide), find_value_quoted t.value hv]
  simp

theorem pairText_length (t : Token) : 3 ≤ (pairText t).length := by
  simp [pairText]
  omega

theorem ruleText_length (ts : List Token) : ts.length ≤ (ruleText ts).length := by
  induction ts with
  | nil => simp
  | cons t ts ih =>
    cases ts with
    | nil =>
      have := pairText_length t
      simp only [ruleText, List.length_singleton]
      omega
    | cons u ts =>
      have := pairText_length t
      simp only [ruleText, List.length_cons, List.length_append] at ih ⊢
      omega

theorem ruleText_cons (t : Token) (ts : List Token) :
    ruleText (t :: ts) = pairText t ++ (if ts = [] then [] else ',' :: ruleText ts) := by
  cases ts with
  | nil => simp [ruleText]
  | cons u ts => simp [ruleText]

/-- The tokenizer loop on the text of a list of well-formed pairs appends
exactly these pairs, with any budget above their number. -/
theorem tokenize_loop_ruleText (ts : List Token)
    (hts : ∀ t ∈ ts, validKey t.key = true ∧ ∀ c ∈ t.value, c ≠ '\x00') :
    ∀ (fuel : Nat) (tokens : List Token), ts.length < fuel →
      tokenize_loop fuel (ruleText ts) tokens = .ok (tokens ++ ts) := by
  induction ts with
  | nil =>
    intro fuel tokens hf
    obtain ⟨f, rfl⟩ : ∃ f, fuel = f + 1 := ⟨fuel - 1, by simp at hf; omega⟩
    simp [tokenize_loop_succ, ruleText]
  | cons t ts ih =>
    intro fuel tokens hf
    obtain ⟨f, rfl⟩ : ∃ f, fuel = f + 1 := ⟨fuel - 1, by omega⟩
    have ht := hts t (List.mem_cons_self t ts)
    have ih' := ih (fun u hu => hts u (List.mem_cons_of_mem t hu)) f (tokens ++ [t])
      (by simp only [List.length_cons] at hf; omega)
    rw [ruleText_cons, tokenize_loop_pair t ht.1 ht.2]
    by_cases hnil : ts = []
    · subst hnil
      simpa [SKIP_WHITE, ruleText] using ih'
    · rw [if_neg hnil, SKIP_WHITE_cons_of_not _ _ (by decide)]
      simpa using ih'

theorem next_cursor_length (p : List Char) :
    (if peek (SKIP_WHITE p) = ',' then (SKIP_WHITE p).tail else SKIP_WHITE p).length
      ≤ p.length := by
  have h1 := SKIP_WHITE_length_le p
  have h2 := tail_length_le (SKIP_WHITE p)
  split <;> omega

theorem tokenize_loop_ne_nofuel (fuel : Nat) :
    ∀ (p : List Char) (tokens : List Token), p.length < fuel →
      tokenize_loop fuel p tokens ≠ .nofuel := by
  induction fuel with
  | zero => intro p tokens hf; simp at hf
  | succ fuel ih =>
    intro p tokens hf
    rw [tokenize_loop_succ]
    split
    · simp
    · split
      · simp
      · rename_i key q hkey
        split
        · simp
        · split
          · simp
          · simp
          · rename_i hfv
            exact absurd hfv (find_value_ne_nofuel _)
          · rename_i value q2 hfv
            split
            · simp
            · apply ih
              have h1 := find_key_length _ _ _ hkey
              have h2 := SKIP_WHITE_length_le p
              have h3 := find_value_length _ _ _ hfv
              have h4 := SKIP_WHITE_length_le (SKIP_WHITE q).tail
              have h5 := tail_length_le (SKIP_WHITE q)
              have h6 := SKIP_WHITE_length_le q
              have h7 := next_cursor_length q2
              omega

/-- The budget that `tokenize_rule` gives to its loop is never used up: the
model of the loop always ends as the C loop does. -/
theorem tokenize_rule_fuel (text : List Char) : tokenize_rule text ≠ .nofuel :=
  tokenize_loop_ne_nofuel _ _ _ (Nat.lt_succ_self _)

/-! ## Claims about the tokenizer -/

/-- C1: round trip of the tokenizer.  For every list of pairs whose keys are an
ASCII letter followed by ASCII letters and digits and whose values are strings
of non-NUL characters, the text that writes each pair as `key='v'` (with a
backslash before every quote and backslash of the value) and joins the pairs
with `,` is tokenized into exactly these pairs, in the same order. -/
theorem tokenize_rule_round_trip (pairs : List Token)
    (hkeys : ∀ t ∈ pairs, validKey t.key = true)
    (hvalues : ∀ t ∈ pairs, ∀ c ∈ t.value, c ≠ '\x00') :
    tokenize_rule (ruleText pairs) = .ok pairs := by
  have h := tokenize_loop_ruleText pairs (fun t ht => ⟨hkeys t ht, hvalues t ht⟩)
    ((ruleText pairs).length + 1) [] (Nat.lt_succ_of_le (ruleText_length pairs))
  simpa [tokenize_rule] using h

/-- Witness of C1 on `type='signal',member='It\'s',arg0='a\\b'`. -/
theorem tokenize_rule_round_trip_witness :
    ruleText [⟨"type".toList, "signal".toList⟩, ⟨"member".toList, "It's".toList⟩,
        ⟨"arg0".toList, "a\\b".toList⟩]
      = "type='signal',member='It\\'s',arg0='a\\\\b'".toList ∧
    tokenize_rule (ruleText [⟨"type".toList, "signal".toList⟩,
        ⟨"member".toList, "It's".toList⟩, ⟨"arg0".toList, "a\\b".toList⟩])
      = .ok [⟨"type".toList, "signal".toList⟩, ⟨"member".toList, "It's".toList⟩,
          ⟨"arg0".toList, "a\\b".toList⟩] :=
  ⟨by decide, tokenize_rule_round_trip _ (by decide) (by decide)⟩

/-! ## `bus_match_rule_new` -/

theorem bus_match_rule_new_of_null (text : List Char) (h : tokenize_rule text = .null) :
    bus_match_rule_new text = .undefined := by
  rw [bus_match_rule_new, h]

theorem bus_match_rule_new_of_ok (text : List Char) (tokens : List Token)
    (h : tokenize_rule text = .ok tokens) :
    bus_match_rule_new text = bus_match_rule_new_loop tokens newRule := by
  rw [bus_match_rule_new, h]

theorem tokenize_rule_of_new_ok (text : List Char) (rule : BusMatchRule)
    (h : bus_match_rule_new text = .ok rule) :
    ∃ tokens, tokenize_rule text = .ok tokens ∧
      bus_match_rule_new_loop tokens newRule = .ok rule := by
  rw [bus_match_rule_new] at h
  split at h
  · rename_i tokens htok
    exact ⟨tokens, htok, h⟩
  · exact absurd h (by simp)
  · exact absurd h (by simp)
  · exact absurd h (by simp)

theorem lastValue_nil (k : List Char) : lastValue k [] = none := rfl

theorem lastValue_cons (k : List Char) (t : Token) (ts : List Token) :
    lastValue k (t :: ts) = (lastValue k ts).or (if t.key = k then some t.value else none) := by
  have h : t :: ts = [t] ++ ts := rfl
  rw [lastValue, lastValue, h, List.filter_append, List.getLast?_append]
  by_cases hk : t.key = k
  · cases hl : (List.filter (fun t => decide (t.key = k)) ts).getLast? <;>
      simp [hk, hl, List.filter_cons]
  · cases hl : (List.filter (fun t => decide (t.key = k)) ts).getLast? <;>
      simp [hk, hl, List.filter_cons]

/-- What one turn of the `for` loop does with a token: it fails exactly on a
`type` token whose value is not the name of a kind, and otherwise writes the
field that the key names and no other. -/
theorem bus_match_rule_new_body_spec (rule : BusMatchRule) (t : Token) :
    (t.key = "type".toList ∧ t.value ∉ kindNames ∧ bus_match_rule_new_body rule t = .null) ∨
    (¬ (t.key = "type".toList ∧ t.value ∉ kindNames) ∧
      ∃ r, bus_match_rule_new_body rule t = .ok r ∧
        r.message_type = (if t.key = "type".toList then kindOfName t.value
          else rule.message_type) ∧
        r.sender = (if t.key = "sender".toList then some t.value else rule.sender) ∧
        r.interface = (if t.key = "interface".toList then some t.value else rule.interface) ∧
        r.member = (if t.key = "member".toList then some t.value else rule.member) ∧
        r.path = (if t.key = "path".toList then some t.value else rule.path) ∧
        r.destination =
          (if t.key = "destination".toList then some t.value else rule.destination) ∧
        r.refcount = rule.refcount ∧ r.args = rule.args) := by
  rw [bus_match_rule_new_body]
  by_cases h0 : t.key = "type".toList
  · simp only [h0, if_true, true_and]
    by_cases h1 : t.value = "signal".toList
    · right
      simp [h1, kindNames, kindOfName, afterSet, bus_match_rule_set_message_type]
    · by_cases h2 : t.value = "method_call".toList
      · right
        simp [h2, kindNames, kindOfName, afterSet, bus_match_rule_set_message_type]
      · by_cases h3 : t.value = "method_return".toList
        · right
          simp [h3, kindNames, kindOfName, afterSet, bus_match_rule_set_message_type]
        · by_cases h4 : t.value = "error".toList
          · right
            simp [h4, kindNames, kindOfName, afterSet, bus_match_rule_set_message_type]
          · left
            simp only [h1, h2, h3, h4, kindNames, List.mem_cons, List.mem_singleton,
              List.not_mem_nil, or_self, or_false, not_false_eq_true, if_false, and_self]
  · right
    refine ⟨fun h => h0 h.1, ?_⟩
    simp only [h0, if_false]
    by_cases h1 : t.key = "sender".toList
    · simp [h1, bus_match_rule_set_sender]
    · by_cases h2 : t.key = "interface".toList
      · simp [h2, bus_match_rule_set_interface]
      · by_cases h3 : t.key = "member".toList
        · simp [h3, bus_match_rule_set_member]
        · by_cases h4 : t.key = "path".toList
          · simp [h4, bus_match_rule_set_path]
          · by_cases h5 : t.key = "destination".toList
            · simp [h5, bus_match_rule_set_destination]
            · simp only [h1, h2, h3, h4, h5, if_false]
              exact ⟨rule, rfl, rfl, rfl, rfl, rfl, rfl, rfl, rfl, rfl⟩

theorem bus_match_rule_new_loop_nil (rule : BusMatchRule) :
    bus_match_rule_new_loop [] rule = .ok rule := rfl

theorem bus_match_rule_new_loop_cons (t : Token) (ts : List Token) (rule : BusMatchRule) :
    bus_match_rule_new_loop (t :: ts) rule =
      match bus_match_rule_new_body rule t with
      | .ok rule => bus_match_rule_new_loop ts rule
      | .null => .null
      | .undefined => .undefined
      | .nofuel => .nofuel := rfl

theorem or_step {α : Type} (a : Option α) (p : Prop) [Decidable p] (v : α) (c : Option α) :
    a.or (if p then some v else c) = (a.or (if p then some v else none)).or c := by
  cases a <;> by_cases hp : p <;> simp [hp]

theorem getD_step (a : Option (List Char)) (p : Prop) [Decidable p] (v : List Char) (c : Int) :
    (a.map kindOfName).getD (if p then kindOfName v else c) =
      ((a.or (if p then some v else none)).map kindOfName).getD c := by
  cases a <;> by_cases hp : p <;> simp [hp]

/-- What the `for` loop does with a token sequence, started on any rule: it
fails exactly when some `type` token does not name a kind, and otherwise
every field holds the value of the last token that names it, or what it held
before when no token names it. -/
theorem bus_match_rule_new_loop_spec (tokens : List Token) :
    ∀ rule : BusMatchRule,
      ((∃ t ∈ tokens, t.key = "type".toList ∧ t.value ∉ kindNames) ∧
        bus_match_rule_new_loop tokens rule = .null) ∨
      ((¬ ∃ t ∈ tokens, t.key = "type".toList ∧ t.value ∉ kindNames) ∧
        ∃ r, bus_match_rule_new_loop tokens rule = .ok r ∧
          r.message_type =
            ((lastValue "type".toList tokens).map kindOfName).getD rule.message_type ∧
          r.sender = (lastValue "sender".toList tokens).or rule.sender ∧
          r.interface = (lastValue "interface".toList tokens).or rule.interface ∧
          r.member = (lastValue "member".toList tokens).or rule.member ∧
          r.path = (lastValue "path".toList tokens).or rule.path ∧
          r.destination = (lastValue "destination".toList tokens).or rule.destination ∧
          r.refcount = rule.refcount ∧ r.args = rule.args) := by
  induction tokens with
  | nil =>
    intro rule
    right
    refine ⟨by simp, rule, rfl, ?_⟩
    simp [lastValue_nil]
  | cons t ts ih =>
    intro rule
    rcases bus_match_rule_new_body_spec rule t with ⟨hk, hv, hb⟩ | ⟨hgood, r1, hb, h1, h2, h3, h4, h5, h6, h7, h8⟩
    · left
      refine ⟨⟨t, List.mem_cons_self t ts, hk, hv⟩, ?_⟩
      rw [bus_match_rule_new_loop_cons, hb]
    · rcases ih r1 with ⟨⟨u, hu, hbad⟩, hl⟩ | ⟨hnone, r, hl, g1, g2, g3, g4, g5, g6, g7, g8⟩
      · left
        refine ⟨⟨u, List.mem_cons_of_mem t hu, hbad⟩, ?_⟩
        rw [bus_match_rule_new_loop_cons, hb]
        exact hl
      · right
        refine ⟨?_, r, ?_, ?_, ?_, ?_, ?_, ?_, ?_, ?_, ?_⟩
        · rintro ⟨u, hu, hbad⟩
          rcases List.mem_cons.1 hu with rfl | hu'
          · exact hgood hbad
          · exact hnone ⟨u, hu', hbad⟩
        · rw [bus_match_rule_new_loop_cons, hb]
          exact hl
        · rw [g1, h1, lastValue_cons, getD_step]
        · rw [g2, h2, lastValue_cons, or_step]
        · rw [g3, h3, lastValue_cons, or_step]
        · rw [g4, h4, lastValue_cons, or_step]
        · rw [g5, h5, lastValue_cons, or_step]
        · rw [g6, h6, lastValue_cons, or_step]
        · rw [g7, h7]
        · rw [g8, h8]

theorem lastValue_some (k : List Char) (tokens : List Token) (v : List Char)
    (h : lastValue k tokens = some v) : ∃ t ∈ tokens, t.key = k ∧ t.value = v := by
  rw [lastValue, Option.map_eq_some'] at h
  obtain ⟨t, ht, hv⟩ := h
  have hmem := List.mem_of_getLast?_eq_some ht
  rw [List.mem_filter] at hmem
  exact ⟨t, hmem.1, by simpa using hmem.2, hv⟩

theorem kindOfName_mem (v : List Char) :
    kindOfName v ∈ [DBUS_MESSAGE_TYPE_INVALID, DBUS_MESSAGE_TYPE_SIGNAL,
      DBUS_MESSAGE_TYPE_METHOD_CALL, DBUS_MESSAGE_TYPE_METHOD_RETURN,
      DBUS_MESSAGE_TYPE_ERROR] := by
  rw [kindOfName]
  split
  · simp
  · split
    · simp
    · split
      · simp
      · split <;> simp

/-! ## Claims about the construction of a rule -/

/-- C2: on the four rejected texts of the specification the tokenizer returns
`NULL`, and `bus_match_rule_new` then reads `tokens->len` through that `NULL`
pointer: it does not return `NULL`, its execution is undefined. -/
theorem bus_match_rule_new_rejected_texts :
    (tokenize_rule "type=signal".toList = .null ∧
      bus_match_rule_new "type=signal".toList = .undefined) ∧
    (tokenize_rule "type='signal'extra".toList = .null ∧
      bus_match_rule_new "type='signal'extra".toList = .undefined) ∧
    (tokenize_rule "type='unterm".toList = .null ∧
      bus_match_rule_new "type='unterm".toList = .undefined) ∧
    (tokenize_rule "1abc='x'".toList = .null ∧
      bus_match_rule_new "1abc='x'".toList = .undefined) := by
  decide

/-- C3: for a text that tokenizes successfully, `bus_match_rule_new` returns
`NULL` exactly when some `type` token has a value that is not one of `signal`,
`method_call`, `method_return`, `error`, and it returns a rule otherwise.  The
kind of that rule is the kind named by the last `type` token, and
`DBUS_MESSAGE_TYPE_INVALID` when there is no `type` token; it is always one
of the four kinds or `DBUS_MESSAGE_TYPE_INVALID`. -/
theorem bus_match_rule_new_type (text : List Char) (tokens : List Token)
    (htok : tokenize_rule text = .ok tokens) :
    (bus_match_rule_new text = .null ↔
      ∃ t ∈ tokens, t.key = "type".toList ∧ t.value ∉ kindNames) ∧
    (bus_match_rule_new text = .null ∨ ∃ rule, bus_match_rule_new text = .ok rule) ∧
    (∀ rule, bus_match_rule_new text = .ok rule →
      rule.message_type =
        ((lastValue "type".toList tokens).map kindOfName).getD DBUS_MESSAGE_TYPE_INVALID ∧
      (∀ v, lastValue "type".toList tokens = some v → v ∈ kindNames) ∧
      rule.message_type ∈ [DBUS_MESSAGE_TYPE_INVALID, DBUS_MESSAGE_TYPE_SIGNAL,
        DBUS_MESSAGE_TYPE_METHOD_CALL, DBUS_MESSAGE_TYPE_METHOD_RETURN,
        DBUS_MESSAGE_TYPE_ERROR]) := by
  rw [bus_match_rule_new_of_ok text tokens htok]
  rcases bus_match_rule_new_loop_spec tokens newRule with
    ⟨hbad, hl⟩ | ⟨hgood, r, hl, h1, -⟩
  · refine ⟨⟨fun _ => hbad, fun _ => hl⟩, Or.inl hl, ?_⟩
    intro rule hrule
    rw [hl] at hrule
    exact absurd hrule (by simp)
  · refine ⟨⟨fun h => ?_, fun h => absurd h hgood⟩, Or.inr ⟨r, hl⟩, ?_⟩
    · rw [hl] at h
      exact absurd h (by simp)
    · intro rule hrule
      rw [hl] at hrule
      cases hrule
      have hkind : r.message_type =
          ((lastValue "type".toList tokens).map kindOfName).getD DBUS_MESSAGE_TYPE_INVALID :=
        h1
      refine ⟨hkind, ?_, ?_⟩
      · intro v hv
        obtain ⟨t, ht, hk, hval⟩ := lastValue_some _ _ _ hv
        by_contra hmem
        exact hgood ⟨t, ht, hk, by rw [hval]; exact hmem⟩
      · rw [hkind]
        cases lastValue "type".toList tokens with
        | none => simp
        | some v => exact kindOfName_mem v

/-- Witness of C3: `type='signal',type='error'` gives a rule of kind error,
and `type='bogus',type='signal'` gives `NULL` although its last `type` token
is valid. -/
theorem bus_match_rule_new_type_witness :
    (bus_match_rule_new "type='bogus',type='signal'".toList = .null ↔
      ∃ t ∈ [(⟨"type".toList, "bogus".toList⟩ : Token), ⟨"type".toList, "signal".toList⟩],
        t.key = "type".toList ∧ t.value ∉ kindNames) ∧
    bus_match_rule_new "type='bogus',type='signal'".toList = .null ∧
    bus_match_rule_new "type='signal',type='error'".toList
      = .ok { newRule with message_type := DBUS_MESSAGE_TYPE_ERROR } :=
  ⟨(bus_match_rule_new_type "type='bogus',type='signal'".toList
      [⟨"type".toList, "bogus".toList⟩, ⟨"type".toList, "signal".toList⟩] (by decide)).1,
    by decide, by decide⟩

/-- C4: last write wins and values are stored verbatim.  When
`bus_match_rule_new` returns a rule, each of the fields sender, interface,
member, path and destination holds the value of the last token with that
key, and is `NULL` when the text has no token with that key. -/
theorem bus_match_rule_new_last_write (text : List Char) (rule : BusMatchRule)
    (h : bus_match_rule_new text = .ok rule) :
    ∃ tokens, tokenize_rule text = .ok tokens ∧
      rule.sender = lastValue "sender".toList tokens ∧
      rule.interface = lastValue "interface".toList tokens ∧
      rule.member = lastValue "member".toList tokens ∧
      rule.path = lastValue "path".toList tokens ∧
      rule.destination = lastValue "destination".toList tokens := by
  obtain ⟨tokens, htok, hloop⟩ := tokenize_rule_of_new_ok text rule h
  refine ⟨tokens, htok, ?_⟩
  rcases bus_match_rule_new_loop_spec tokens newRule with
    ⟨-, hl⟩ | ⟨-, r, hl, -, h2, h3, h4, h5, h6, -⟩
  · rw [hl] at hloop
    exact absurd hloop (by simp)
  · rw [hl] at hloop
    cases hloop
    refine ⟨?_, ?_, ?_, ?_, ?_⟩
    · rw [h2]; exact Option.or_none
    · rw [h3]; exact Option.or_none
    · rw [h4]; exact Option.or_none
    · rw [h5]; exact Option.or_none
    · rw [h6]; exact Option.or_none

/-- Witness of C4 on `sender='A',path='/x',sender='B'`: the sender is `B`. -/
theorem bus_match_rule_new_last_write_witness :
    ∃ tokens, tokenize_rule "sender='A',path='/x',sender='B'".toList = .ok tokens ∧
      (some "B".toList) = lastValue "sender".toList tokens ∧
      none = lastValue "interface".toList tokens ∧
      none = lastValue "member".toList tokens ∧
      (some "/x".toList) = lastValue "path".toList tokens ∧
      none = lastValue "destination".toList tokens :=
  bus_match_rule_new_last_write "sender='A',path='/x',sender='B'".toList
    { newRule with sender := some "B".toList, path := some "/x".toList } (by decide)

/-! ## What a successful tokenization returns -/

theorem find_key_loop_spec (p : List Char) :
    ∀ (text k q : List Char), find_key_loop text p = (k, q) →
      ∃ cs, k = text ++ cs ∧ (∀ c ∈ cs, c.isAlphanum = true) ∧ p = cs ++ q ∧
        (peek q).isAlphanum = false := by
  induction p with
  | nil =>
    intro text k q h
    rw [find_key_loop] at h
    cases h
    exact ⟨[], by simp, by simp, rfl, by decide⟩
  | cons c p ih =>
    intro text k q h
    rw [find_key_loop, IS_ALPHA_or_IS_NUMBER] at h
    by_cases hc : c.isAlphanum = true
    · rw [if_pos hc] at h
      obtain ⟨cs, hk, hcs, hp, hq⟩ := ih _ _ _ h
      refine ⟨c :: cs, by simp [hk], ?_, by simp [hp], hq⟩
      intro d hd
      rcases List.mem_cons.1 hd with rfl | hd'
      · exact hc
      · exact hcs d hd'
    · rw [if_neg hc] at h
      cases h
      exact ⟨[], by simp, by simp, rfl, by simpa using hc⟩

/-- A key returned by `find_key` is a letter followed by letters and digits,
it is what the text holds after the white space, and the cursor is left on a
character that is neither a letter nor a digit. -/
theorem find_key_spec (p k q : List Char) (h : find_key p = some (k, q)) :
    validKey k = true ∧ SKIP_WHITE p = k ++ q ∧ (peek q).isAlphanum = false := by
  rw [find_key] at h
  split at h
  · exact absurd h (by simp)
  · rename_i c r hr
    by_cases hc : IS_ALPHA c = true
    · simp only [hc, Bool.not_true, Bool.false_eq_true, if_false] at h
      obtain ⟨cs, hk, hcs, hp, hq⟩ := find_key_loop_spec r [c] k q (Option.some.inj h)
      refine ⟨?_, ?_, hq⟩
      · rw [validKey_iff]
        exact ⟨c, cs, by simpa using hk, by rw [← IS_ALPHA_eq]; exact hc, hcs⟩
      · rw [hr, hk, hp]
        simp
    · simp [hc] at h

theorem find_value_loop_spec (n : Nat) :
    ∀ (p text v q : List Char), p.length ≤ n → find_value_loop text p = .ok (v, q) →
      ∃ w, v = text ++ w ∧ ∀ c ∈ w, c ≠ '\x00' := by
  induction n with
  | zero =>
    intro p text v q hn h
    cases p with
    | nil => simp [find_value_loop_nil] at h
    | cons c p => simp at hn
  | succ n ih =>
    intro p text v q hn h
    cases p with
    | nil => simp [find_value_loop_nil] at h
    | cons c p =>
      rw [find_value_loop_cons] at h
      simp only [List.length_cons, Nat.add_le_add_iff_right] at hn
      split at h
      · cases h
        exact ⟨[], by simp, by simp⟩
      · split at h
        · exact absurd h (by simp)
        · rename_i hnul
          split at h
          · cases p with
            | nil => exact absurd h (by simp)
            | cons d p' =>
              simp only at h
              split at h
              · exact absurd h (by simp)
              · rename_i hd
                obtain ⟨w, hv, hw⟩ :=
                  ih p' _ v q (by simp only [List.length_cons] at hn; omega) h
                refine ⟨d :: w, by simp [hv], ?_⟩
                intro e he
                rcases List.mem_cons.1 he with rfl | he'
                · exact hd
                · exact hw e he'
          · obtain ⟨w, hv, hw⟩ := ih p _ v q hn h
            refine ⟨c :: w, by simp [hv], ?_⟩
            intro e he
            rcases List.mem_cons.1 he with rfl | he'
            · exact hnul
            · exact hw e he'

/-- A value returned by `find_value` holds no NUL. -/
theorem find_value_spec (p v q : List Char) (h : find_value p = .ok (v, q)) :
    ∀ c ∈ v, c ≠ '\x00' := by
  rw [find_value] at h
  split at h
  · exact absurd h (by simp)
  · rename_i c r hr
    split at h
    · exact absurd h (by simp)
    · obtain ⟨w, hv, hw⟩ := find_value_loop_spec r.length r [] v q (Nat.le_refl _) h
      rw [hv]
      simpa using hw

theorem tokenize_loop_tokens (fuel : Nat) :
    ∀ (p : List Char) (tokens result : List Token),
      tokenize_loop fuel p tokens = .ok result →
      (∀ t ∈ tokens, validKey t.key = true ∧ ∀ c ∈ t.value, c ≠ '\x00') →
      ∀ t ∈ result, validKey t.key = true ∧ ∀ c ∈ t.value, c ≠ '\x00' := by
  induction fuel with
  | zero =>
    intro p tokens result h
    simp [tokenize_loop] at h
  | succ fuel ih =>
    intro p tokens result h htokens
    rw [tokenize_loop_succ] at h
    split at h
    · cases h
      exact htokens
    · split at h
      · exact absurd h (by simp)
      · rename_i key q hkey
        split at h
        · exact absurd h (by simp)
        · split at h
          · exact absurd h (by simp)
          · exact absurd h (by simp)
          · exact absurd h (by simp)
          · rename_i value q2 hfv
            split at h
            · exact absurd h (by simp)
            · apply ih _ _ _ h
              intro t ht
              rcases List.mem_append.1 ht with ht' | ht'
              · exact htokens t ht'
              · rw [List.mem_singleton] at ht'
                subst ht'
                exact ⟨(find_key_spec _ _ _ hkey).1, find_value_spec _ _ _ hfv⟩

/-- Every token of a successful tokenization has a key made of a letter
followed by letters and digits, and a value without NUL. -/
theorem tokenize_rule_tokens (text : List Char) (tokens : List Token)
    (h : tokenize_rule text = .ok tokens) :
    ∀ t ∈ tokens, validKey t.key = true ∧ ∀ c ∈ t.value, c ≠ '\x00' :=
  tokenize_loop_tokens _ _ _ _ h (by simp)

theorem tokenize_rule_ruleText (ts : List Token)
    (hts : ∀ t ∈ ts, validKey t.key = true ∧ ∀ c ∈ t.value, c ≠ '\x00') :
    tokenize_rule (ruleText ts) = .ok ts := by
  have h := tokenize_loop_ruleText ts hts
    ((ruleText ts).length + 1) [] (Nat.lt_succ_of_le (ruleText_length ts))
  simpa [tokenize_rule] using h

/-! ## Unknown keys -/

theorem bus_match_rule_new_body_unknown (rule : BusMatchRule) (t : Token)
    (ht : t.key ∉ knownKeys) : bus_match_rule_new_body rule t = .ok rule := by
  simp only [knownKeys, List.mem_cons, List.mem_singleton, List.not_mem_nil, or_false,
    not_or] at ht
  obtain ⟨h1, h2, h3, h4, h5, h6⟩ := ht
  rw [bus_match_rule_new_body, if_neg h1, if_neg h2, if_neg h3, if_neg h4, if_neg h5,
    if_neg h6]

theorem bus_match_rule_new_loop_filter (tokens : List Token) :
    ∀ rule : BusMatchRule,
      bus_match_rule_new_loop (tokens.filter (fun t => decide (t.key ∈ knownKeys))) rule =
        bus_match_rule_new_loop tokens rule := by
  induction tokens with
  | nil => intro rule; rfl
  | cons t ts ih =>
    intro rule
    by_cases ht : t.key ∈ knownKeys
    · rw [List.filter_cons_of_pos (by simpa using ht), bus_match_rule_new_loop_cons,
        bus_match_rule_new_loop_cons]
      cases bus_match_rule_new_body rule t with
      | ok r => exact ih r
      | null => rfl
      | undefined => rfl
      | nofuel => rfl
    · rw [List.filter_cons_of_neg (by simpa using ht), bus_match_rule_new_loop_cons,
        bus_match_rule_new_body_unknown rule t ht]
      exact ih rule

theorem filter_known_eq_nil (tokens : List Token) (h : ∀ t ∈ tokens, t.key ∉ knownKeys) :
    tokens.filter (fun t => decide (t.key ∈ knownKeys)) = [] := by
  rw [List.filter_eq_nil_iff]
  intro t ht
  simpa using h t ht

/-- C5: unknown keys are silently ignored.  Let `tokens` be the pairs of a
text that tokenizes successfully, and delete the pairs whose key is not one of
type, sender, interface, member, path, destination.  The text of the pairs
that are left tokenizes into them, and on every text that tokenizes into them
`bus_match_rule_new` ends as on the original text (same result, same rule).
When no pair is left, the result is the rule built from the empty text, in
which nothing is set. -/
theorem bus_match_rule_new_unknown_keys (text : List Char) (tokens : List Token)
    (htok : tokenize_rule text = .ok tokens) :
    tokenize_rule (ruleText (tokens.filter (fun t => decide (t.key ∈ knownKeys))))
      = .ok (tokens.filter (fun t => decide (t.key ∈ knownKeys))) ∧
    (∀ text', tokenize_rule text'
        = .ok (tokens.filter (fun t => decide (t.key ∈ knownKeys))) →
      bus_match_rule_new text' = bus_match_rule_new text) ∧
    ((∀ t ∈ tokens, t.key ∉ knownKeys) →
      bus_match_rule_new text = bus_match_rule_new [] ∧
      bus_match_rule_new text = .ok newRule) := by
  refine ⟨?_, ?_, ?_⟩
  · apply tokenize_rule_ruleText
    intro t ht
    exact tokenize_rule_tokens text tokens htok t (List.mem_of_mem_filter ht)
  · intro text' htok'
    rw [bus_match_rule_new_of_ok text' _ htok', bus_match_rule_new_of_ok text tokens htok]
    exact bus_match_rule_new_loop_filter tokens newRule
  · intro hall
    have h : bus_match_rule_new text = .ok newRule := by
      rw [bus_match_rule_new_of_ok text tokens htok, ← bus_match_rule_new_loop_filter,
        filter_known_eq_nil tokens hall]
      rfl
    exact ⟨by rw [h]; decide, h⟩

/-- Witness of C5: `foo='bar',sender='A',arg0='x'` is built as `sender='A'`,
and `foo='bar'` and `arg0='x'` are built as the empty text. -/
theorem bus_match_rule_new_unknown_keys_witness :
    (bus_match_rule_new "sender='A'".toList
      = bus_match_rule_new "foo='bar',sender='A',arg0='x'".toList) ∧
    (bus_match_rule_new "foo='bar'".toList = bus_match_rule_new [] ∧
      bus_match_rule_new "foo='bar'".toList = .ok newRule) ∧
    (bus_match_rule_new "arg0='x'".toList = bus_match_rule_new [] ∧
      bus_match_rule_new "arg0='x'".toList = .ok newRule) :=
  ⟨(bus_match_rule_new_unknown_keys "foo='bar',sender='A',arg0='x'".toList
      [⟨"foo".toList, "bar".toList⟩, ⟨"sender".toList, "A".toList⟩,
        ⟨"arg0".toList, "x".toList⟩] (by decide)).2.1 "sender='A'".toList (by decide),
    (bus_match_rule_new_unknown_keys "foo='bar'".toList [⟨"foo".toList, "bar".toList⟩]
      (by decide)).2.2 (by decide),
    (bus_match_rule_new_unknown_keys "arg0='x'".toList [⟨"arg0".toList, "x".toList⟩]
      (by decide)).2.2 (by decide)⟩

/-- C6, as the code has it: `bus_match_rule_new ("")` returns the rule in
which no field is set, and `bus_match_rule_match` returns `FALSE` on this
rule for every message: the matching operation compares nothing. -/
theorem bus_match_rule_new_empty_matches_none :
    bus_match_rule_new [] = .ok newRule ∧
    ∀ message : DBusMessage, bus_match_rule_match newRule message = false :=
  ⟨by decide, fun _ => rfl⟩

/-- C6 as stated fails: the rule built from the empty text does not match the
signal message without fields. -/
theorem bus_match_rule_new_empty_matches_all_fails :
    ¬ (∃ rule, bus_match_rule_new [] = .ok rule ∧
        ∀ message : DBusMessage, bus_match_rule_match rule message = true) := by
  rintro ⟨rule, -, hall⟩
  have h := hall ⟨DBUS_MESSAGE_TYPE_SIGNAL, none, none, none, none, none, []⟩
  simp [bus_match_rule_match] at h

/-! ## Rejected texts -/

/-- One iteration of the tokenizer on a valid key followed by `r`, where `r`
does not go on with a letter or a digit: the key is read, and what is left
to decide is the `=`, the value and the separator. -/
theorem tokenize_loop_key (k r : List Char) (hk : validKey k = true)
    (hr : (peek r).isAlphanum = false) (fuel : Nat) (tokens : List Token) :
    tokenize_loop (fuel + 1) (k ++ r) tokens =
      if peek (SKIP_WHITE r) ≠ '=' then .null
      else
        match find_value (SKIP_WHITE (SKIP_WHITE r).tail) with
        | .null => .null
        | .undefined => .undefined
        | .nofuel => .nofuel
        | .ok (value, p) =>
          if peek (SKIP_WHITE p) ≠ ',' ∧ peek (SKIP_WHITE p) ≠ '\x00' then .null
          else
            tokenize_loop fuel
              (if peek (SKIP_WHITE p) = ',' then (SKIP_WHITE p).tail else SKIP_WHITE p)
              (tokens ++ [⟨k, value⟩]) := by
  have h0 := validKey_peek k r hk
  rw [tokenize_loop_succ, if_neg (isAlpha_ne_nul h0),
    SKIP_WHITE_of_peek _ (isAlpha_not_white h0), find_key_valid k r hk hr]

theorem find_value_loop_escaped (v : List Char) (hv : ∀ c ∈ v, c ≠ '\x00')
    (text r : List Char) :
    find_value_loop text (escapeValue v ++ r) = find_value_loop (text ++ v) r := by
  induction v generalizing text with
  | nil => simp [escapeValue]
  | cons c v ih =>
    rw [escapeValue, List.append_assoc,
      find_value_loop_escapeChar c (hv c (List.mem_cons_self c v)),
      ih (fun d hd => hv d (List.mem_cons_of_mem c hd))]
    simp

theorem peek_dropWhile (p : List Char) :
    (p.dropWhile isWhite).head? = none ∧ peek (SKIP_WHITE p) = '\x00' ∨
    (p.dropWhile isWhite).head? = some (peek (SKIP_WHITE p)) := by
  rw [SKIP_WHITE_eq_dropWhile]
  cases p.dropWhile isWhite with
  | nil => exact Or.inl ⟨rfl, rfl⟩
  | cons c q => exact Or.inr rfl

theorem peek_ne_of_head (p : List Char) (c : Char) (hc : c ≠ '\x00')
    (h : (p.dropWhile isWhite).head? ≠ some c) : peek (SKIP_WHITE p) ≠ c := by
  rcases peek_dropWhile p with ⟨-, h0⟩ | h1
  · rw [h0]
    exact fun e => hc e.symm
  · intro e
    rw [e] at h1
    exact h h1

/-- C7: unterminated values.  For a valid key and any value, the text
`key='value` that ends before a closing quote makes `tokenize_rule` return
`NULL`; but when a backslash is the last character of the text, after the
value, the cursor moves past the terminating NUL and the tokenizer reads
beyond the text instead of failing. -/
theorem tokenize_rule_unterminated (k v : List Char) (hk : validKey k = true)
    (hv : ∀ c ∈ v, c ≠ '\x00') :
    tokenize_rule (k ++ '=' :: '\'' :: escapeValue v) = .null ∧
    tokenize_rule (k ++ '=' :: '\'' :: (escapeValue v ++ ['\\'])) = .undefined := by
  constructor
  · rw [tokenize_rule, tokenize_loop_key k _ hk (by rw [peek_cons]; decide),
      SKIP_WHITE_cons_of_not _ _ (by decide), peek_cons, List.tail_cons,
      SKIP_WHITE_cons_of_not _ _ (by decide), find_value,
      SKIP_WHITE_cons_of_not _ _ (by decide)]
    have h := find_value_loop_escaped v hv [] []
    rw [List.append_nil, find_value_loop_nil] at h
    simp [h]
  · rw [tokenize_rule, tokenize_loop_key k _ hk (by rw [peek_cons]; decide),
      SKIP_WHITE_cons_of_not _ _ (by decide), peek_cons, List.tail_cons,
      SKIP_WHITE_cons_of_not _ _ (by decide), find_value,
      SKIP_WHITE_cons_of_not _ _ (by decide)]
    have h := find_value_loop_escaped v hv [] ['\\']
    rw [find_value_loop_cons] at h
    simp [h]

/-- Witness of C7 on `type='unterm` and on `k='a\`. -/
theorem tokenize_rule_unterminated_witness :
    (tokenize_rule "type='unterm".toList = .null ∧
      tokenize_rule ("type='unterm".toList ++ ['\\']) = .undefined) ∧
    (tokenize_rule "k='a".toList = .null ∧ tokenize_rule "k='a\\".toList = .undefined) :=
  ⟨tokenize_rule_unterminated "type".toList "unterm".toList (by decide) (by decide),
    tokenize_rule_unterminated "k".toList "a".toList (by decide) (by decide)⟩

/-- C8: bad trailing character.  After a well-formed pair `key='value'` and
any run `w` of spaces and tabs, a character that is not a `,`, a space or a
tab makes `tokenize_rule` return `NULL`, whatever follows it; the pair
followed by the white space alone is accepted. -/
theorem tokenize_rule_bad_trailing (t : Token) (hk : validKey t.key = true)
    (hv : ∀ c ∈ t.value, c ≠ '\x00') (w : List Char) (hw : ∀ c ∈ w, isWhite c = true)
    (c : Char) (rest : List Char) (hcomma : c ≠ ',') (hwhite : isWhite c = false)
    (hnul : c ≠ '\x00') :
    tokenize_rule (pairText t ++ w ++ c :: rest) = .null ∧
    tokenize_rule (pairText t ++ w) = .ok [t] := by
  constructor
  · rw [tokenize_rule, List.append_assoc, tokenize_loop_pair t hk hv,
      SKIP_WHITE_append w _ hw, SKIP_WHITE_cons_of_not c rest hwhite, peek_cons,
      if_pos ⟨hcomma, hnul⟩]
  · have hlen : (pairText t ++ w).length + 1 = ((pairText t ++ w).length - 1 + 1) + 1 := by
      have := pairText_length t
      simp only [List.length_append]
      omega
    have hs : SKIP_WHITE w = [] := by
      have := SKIP_WHITE_append w [] hw
      rw [List.append_nil] at this
      rw [this]
      rfl
    rw [tokenize_rule, hlen, tokenize_loop_pair t hk hv, hs, tokenize_loop_succ]
    simp

/-- Witness of C8 on `type='signal'extra` and on `type='signal' 	x`. -/
theorem tokenize_rule_bad_trailing_witness :
    (tokenize_rule "type='signal'extra".toList = .null ∧
      tokenize_rule "type='signal'".toList = .ok [⟨"type".toList, "signal".toList⟩]) ∧
    (tokenize_rule "type='signal' \tx".toList = .null ∧
      tokenize_rule "type='signal' \t".toList = .ok [⟨"type".toList, "signal".toList⟩]) :=
  ⟨tokenize_rule_bad_trailing ⟨"type".toList, "signal".toList⟩ (by decide) (by decide)
      [] (by decide) 'e' "xtra".toList (by decide) (by decide) (by decide),
    tokenize_rule_bad_trailing ⟨"type".toList, "signal".toList⟩ (by decide) (by decide)
      " \t".toList (by decide) 'x' [] (by decide) (by decide) (by decide)⟩

/-- C9: keys must start with a letter.  On a non-empty text whose first
character after the leading spaces and tabs is not an ASCII letter (or that
holds spaces and tabs only), `tokenize_rule` returns `NULL`. -/
theorem tokenize_rule_key_start (text : List Char) (hne : text ≠ [])
    (hnul : '\x00' ∉ text)
    (hfirst : ∀ c, (text.dropWhile isWhite).head? = some c → c.isAlpha = false) :
    tokenize_rule text = .null := by
  have hpeek : peek text ≠ '\x00' := by
    cases text with
    | nil => exact absurd rfl hne
    | cons c p =>
      rw [peek_cons]
      intro e
      exact hnul (by rw [e]; exact List.mem_cons_self _ _)
  have hkey : find_key (SKIP_WHITE text) = none := by
    apply find_key_none
    rw [SKIP_WHITE_idem]
    rcases peek_dropWhile text with ⟨-, h0⟩ | h1
    · rw [h0]
      decide
    · exact hfirst _ h1
  rw [tokenize_rule, tokenize_loop_succ, if_neg hpeek, hkey]

/-- Witness of C9 on `1abc='x'`, on a text of white space and on `_a='x'`. -/
theorem tokenize_rule_key_start_witness :
    tokenize_rule "1abc='x'".toList = .null ∧ tokenize_rule " \t ".toList = .null ∧
      tokenize_rule "  _a='x'".toList = .null :=
  ⟨tokenize_rule_key_start "1abc='x'".toList (by decide) (by decide) (by decide),
    tokenize_rule_key_start " \t ".toList (by decide) (by decide) (by decide),
    tokenize_rule_key_start "  _a='x'".toList (by decide) (by decide) (by decide)⟩

/-- C10: a pair has the shape `key = 'value'`.  For a valid key `k` and a
text `r` that does not begin with a letter or a digit, `tokenize_rule` returns
`NULL` on `k ++ r` when the first character of `r` after spaces and tabs is
not `=`, and also when it is `=` but the first character after it and after
further spaces and tabs is not a quote. -/
theorem tokenize_rule_pair_shape (k r : List Char) (hk : validKey k = true)
    (hr : ∀ c, r.head? = some c → c.isAlphanum = false) :
    ((r.dropWhile isWhite).head? ≠ some '=' → tokenize_rule (k ++ r) = .null) ∧
    (∀ w r2 : List Char, (∀ c ∈ w, isWhite c = true) → r = w ++ '=' :: r2 →
      (r2.dropWhile isWhite).head? ≠ some '\'' → tokenize_rule (k ++ r) = .null) := by
  have hr' : (peek r).isAlphanum = false := by
    cases r with
    | nil => decide
    | cons c p => exact hr c rfl
  constructor
  · intro h
    rw [tokenize_rule, tokenize_loop_key k r hk hr',
      if_pos (peek_ne_of_head r '=' (by decide) h)]
  · intro w r2 hw hrw h
    have hs : SKIP_WHITE r = '=' :: r2 := by
      rw [hrw, SKIP_WHITE_append w _ hw, SKIP_WHITE_cons_of_not _ _ (by decide)]
    have hv : find_value (SKIP_WHITE r2) = .null := by
      apply find_value_null
      rw [SKIP_WHITE_idem]
      exact peek_ne_of_head r2 '\'' (by decide) h
    rw [tokenize_rule, tokenize_loop_key k r hk hr', hs, peek_cons, List.tail_cons, hv]
    simp

/-- Witness of C10 on `type`, `my_key='x'`, `type 'signal'` and `type=signal`. -/
theorem tokenize_rule_pair_shape_witness :
    tokenize_rule "type".toList = .null ∧ tokenize_rule "my_key='x'".toList = .null ∧
      tokenize_rule "type 'signal'".toList = .null ∧
      tokenize_rule "type=signal".toList = .null ∧
      tokenize_rule "type = \tsignal'".toList = .null :=
  ⟨(tokenize_rule_pair_shape "type".toList [] (by decide) (by decide)).1 (by decide),
    (tokenize_rule_pair_shape "my".toList "_key='x'".toList (by decide) (by decide)).1
      (by decide),
    (tokenize_rule_pair_shape "type".toList " 'signal'".toList (by decide) (by decide)).1
      (by decide),
    (tokenize_rule_pair_shape "type".toList "=signal".toList (by decide) (by decide)).2
      [] "signal".toList (by decide) (by decide) (by decide),
    (tokenize_rule_pair_shape "type".toList " = \tsignal'".toList (by decide) (by decide)).2
      " ".toList " \tsignal'".toList (by decide) (by decide) (by decide)⟩

/-! ## Stubs, empty input and the shape of keys -/

/-- C14: empty input.  `tokenize_rule ("")` returns an empty token array, and
`bus_match_rule_new ("")` returns a rule whose kind is
`DBUS_MESSAGE_TYPE_INVALID`, whose sender, interface, member, path and
destination are `NULL`, whose argument array is empty and whose reference
count is 1. -/
theorem bus_match_rule_new_on_empty_text :
    tokenize_rule [] = .ok [] ∧
    ∃ rule, bus_match_rule_new [] = .ok rule ∧
      rule.message_type = DBUS_MESSAGE_TYPE_INVALID ∧ rule.sender = none ∧
      rule.interface = none ∧ rule.member = none ∧ rule.path = none ∧
      rule.destination = none ∧ rule.args = [] ∧ rule.refcount = 1 :=
  ⟨by decide, newRule, by decide, rfl, rfl, rfl, rfl, rfl, rfl, rfl, rfl⟩

/-- C18: the matching operation is a stub.  For every rule and every message
`bus_match_rule_match` returns `FALSE` and leaves the rule as it was,
whatever the rule has set. -/
theorem bus_match_rule_match_stub (rule : BusMatchRule) (message : DBusMessage) :
    bus_match_rule_match rule message = false ∧
    bus_match_rule_match_run rule message = (false, rule) :=
  ⟨rfl, rfl⟩

/-- C19: token key invariant.  Every key of a successful tokenization is not
empty, begins with an ASCII letter and holds ASCII letters and digits only;
it holds no space, tab, `=`, `,`, quote or underscore. -/
theorem tokenize_rule_key_shape (text : List Char) (tokens : List Token)
    (h : tokenize_rule text = .ok tokens) :
    ∀ t ∈ tokens, t.key ≠ [] ∧
      (∃ c cs, t.key = c :: cs ∧ c.isAlpha = true) ∧
      (∀ d ∈ t.key, d.isAlphanum = true) ∧
      (∀ d ∈ t.key, d ≠ ' ' ∧ d ≠ '\t' ∧ d ≠ '=' ∧ d ≠ ',' ∧ d ≠ '\'' ∧ d ≠ '_') := by
  intro t ht
  obtain ⟨c, cs, hk, hc, hcs⟩ :=
    (validKey_iff t.key).1 (tokenize_rule_tokens text tokens h t ht).1
  have hall : ∀ d ∈ t.key, d.isAlphanum = true := by
    intro d hd
    rw [hk] at hd
    rcases List.mem_cons.1 hd with rfl | hd'
    · simp [Char.isAlphanum, hc]
    · exact hcs d hd'
  refine ⟨by rw [hk]; simp, ⟨c, cs, hk, hc⟩, hall, ?_⟩
  intro d hd
  have h1 := hall d hd
  refine ⟨?_, ?_, ?_, ?_, ?_, ?_⟩ <;> (intro e; subst e; exact absurd h1 (by decide))

/-- Witness of C19 on the key `arg0` of `type='signal',arg0='x'`. -/
theorem tokenize_rule_key_shape_witness :
    "arg0".toList ≠ [] ∧
      (∃ c cs, "arg0".toList = c :: cs ∧ c.isAlpha = true) ∧
      (∀ d ∈ "arg0".toList, d.isAlphanum = true) ∧
      (∀ d ∈ "arg0".toList,
        d ≠ ' ' ∧ d ≠ '\t' ∧ d ≠ '=' ∧ d ≠ ',' ∧ d ≠ '\'' ∧ d ≠ '_') :=
  tokenize_rule_key_shape "type='signal',arg0='x'".toList
    [⟨"type".toList, "signal".toList⟩, ⟨"arg0".toList, "x".toList⟩] (by decide)
    ⟨"arg0".toList, "x".toList⟩ (by decide)

/-- The argument array of a rule that `bus_match_rule_new` returns is the
empty array it was created with, and its reference count is 1. -/
theorem bus_match_rule_new_args (text : List Char) (rule : BusMatchRule)
    (h : bus_match_rule_new text = .ok rule) : rule.args = [] ∧ rule.refcount = 1 := by
  obtain ⟨tokens, -, hloop⟩ := tokenize_rule_of_new_ok text rule h
  rcases bus_match_rule_new_loop_spec tokens newRule with
    ⟨-, hl⟩ | ⟨-, r, hl, -, -, -, -, -, -, h7, h8⟩
  · rw [hl] at hloop
    exact absurd hloop (by simp)
  · rw [hl] at hloop
    cases hloop
    exact ⟨h8, h7⟩

/-- C20: argument predicates are never stored.  `bus_match_rule_set_arg`
returns `TRUE` and leaves the rule as it was, for every rule, index and
value; and the argument array of every rule that `bus_match_rule_new` returns
is empty, also for a text with a pair such as `arg0='foo'`. -/
theorem bus_match_rule_args_never_stored :
    (∀ (rule : BusMatchRule) (arg_index : Nat) (arg : List Char),
      bus_match_rule_set_arg rule arg_index arg = (true, rule)) ∧
    (∀ (text : List Char) (rule : BusMatchRule),
      bus_match_rule_new text = .ok rule → rule.args = []) ∧
    bus_match_rule_new "arg0='foo'".toList = .ok newRule ∧ newRule.args = [] :=
  ⟨fun _ _ _ => rfl, fun text rule h => (bus_match_rule_new_args text rule h).1,
    by decide, rfl⟩

/-- Witness of C20 on `sender='A',arg0='foo',arg1='bar'`. -/
theorem bus_match_rule_args_never_stored_witness :
    ({ newRule with sender := some "A".toList } : BusMatchRule).args = [] :=
  bus_match_rule_args_never_stored.2.1 "sender='A',arg0='foo',arg1='bar'".toList
    { newRule with sender := some "A".toList } (by decide)

/-! ## Escapes and empty values -/

theorem escapeValue_plain (a : List Char) (ha : ∀ d ∈ a, d ≠ '\'' ∧ d ≠ '\\') :
    escapeValue a = a := by
  induction a with
  | nil => rfl
  | cons d a ih =>
    have hd := ha d (List.mem_cons_self d a)
    rw [escapeValue, escapeChar, if_neg (by rintro (h | h) <;> simp [h] at hd),
      ih (fun e he => ha e (List.mem_cons_of_mem d he))]
    rfl

theorem find_value_loop_backslash (text : List Char) (c : Char) (hc : c ≠ '\x00')
    (r : List Char) :
    find_value_loop text ('\\' :: c :: r) = find_value_loop (text ++ [c]) r := by
  rw [find_value_loop_cons]
  simp only [show ('\\' : Char) ≠ '\'' by decide, show ('\\' : Char) ≠ '\x00' by decide,
    if_false, if_true, hc]

/-- A text made of one key, `=`, a quote and a value body that `find_value`
reads up to the end of the text is tokenized into one token. -/
theorem tokenize_rule_single (k body v : List Char) (hk : validKey k = true)
    (hbody : find_value_loop [] body = .ok (v, [])) :
    tokenize_rule (k ++ '=' :: '\'' :: body) = .ok [⟨k, v⟩] := by
  have hlen : (k ++ '=' :: '\'' :: body).length + 1
      = ((k ++ '=' :: '\'' :: body).length - 1 + 1) + 1 := by
    simp only [List.length_append, List.length_cons]
    omega
  rw [tokenize_rule, hlen, tokenize_loop_key k _ hk (by rw [peek_cons]; decide),
    SKIP_WHITE_cons_of_not _ _ (by decide), peek_cons, List.tail_cons,
    SKIP_WHITE_cons_of_not _ _ (by decide), find_value,
    SKIP_WHITE_cons_of_not _ _ (by decide)]
  simp only [ne_eq, not_true_eq_false, if_false, hbody]
  rw [tokenize_loop_succ]
  simp [SKIP_WHITE]

/-- C12: escape fidelity.  Inside a value a backslash followed by a non-NUL
character `c` adds exactly `c` to the value and the value goes on; for a valid
key `k` and strings `a`, `b` without quote and backslash, the text `k='a\cb'`
is tokenized into the single token `(k, a ++ [c] ++ b)`. -/
theorem tokenize_rule_escape (k a b : List Char) (c : Char) (hk : validKey k = true)
    (ha : ∀ d ∈ a, d ≠ '\'' ∧ d ≠ '\\' ∧ d ≠ '\x00')
    (hb : ∀ d ∈ b, d ≠ '\'' ∧ d ≠ '\\' ∧ d ≠ '\x00') (hc : c ≠ '\x00') :
    (∀ text r : List Char,
      find_value_loop text ('\\' :: c :: r) = find_value_loop (text ++ [c]) r) ∧
    tokenize_rule (k ++ '=' :: '\'' :: (a ++ '\\' :: c :: (b ++ ['\''])))
      = .ok [⟨k, a ++ [c] ++ b⟩] := by
  refine ⟨fun text r => find_value_loop_backslash text c hc r, ?_⟩
  apply tokenize_rule_single k _ _ hk
  have h1 := find_value_loop_escaped a (fun d hd => (ha d hd).2.2) []
    ('\\' :: c :: (b ++ ['\'']))
  have h2 := find_value_loop_escapeValue b (fun d hd => (hb d hd).2.2) ([] ++ a ++ [c]) []
  rw [escapeValue_plain a (fun d hd => ⟨(ha d hd).1, (ha d hd).2.1⟩)] at h1
  rw [escapeValue_plain b (fun d hd => ⟨(hb d hd).1, (hb d hd).2.1⟩)] at h2
  rw [h1, find_value_loop_backslash _ c hc, h2]
  simp

/-- Witness of C12: `key='a\'b'` gives `a'b`, `key='a\\b'` gives `a\b`, and
`key='x\ny'` gives `xny`. -/
theorem tokenize_rule_escape_witness :
    tokenize_rule "key='a\\'b'".toList = .ok [⟨"key".toList, "a'b".toList⟩] ∧
    tokenize_rule "key='a\\\\b'".toList = .ok [⟨"key".toList, "a\\b".toList⟩] ∧
    tokenize_rule "key='x\\ny'".toList = .ok [⟨"key".toList, "xny".toList⟩] :=
  ⟨(tokenize_rule_escape "key".toList "a".toList "b".toList '\'' (by decide) (by decide)
      (by decide) (by decide)).2,
    (tokenize_rule_escape "key".toList "a".toList "b".toList '\\' (by decide) (by decide)
      (by decide) (by decide)).2,
    (tokenize_rule_escape "key".toList "x".toList "y".toList 'n' (by decide) (by decide)
      (by decide) (by decide)).2⟩

/-- The string fields of a rule that `bus_match_rule_new` returns, in terms
of the tokens of the text. -/
theorem new_rule_string_fields (text : List Char) (tokens : List Token)
    (rule : BusMatchRule) (htok : tokenize_rule text = .ok tokens)
    (h : bus_match_rule_new text = .ok rule) :
    rule.sender = lastValue "sender".toList tokens ∧
    rule.interface = lastValue "interface".toList tokens ∧
    rule.member = lastValue "member".toList tokens ∧
    rule.path = lastValue "path".toList tokens ∧
    rule.destination = lastValue "destination".toList tokens := by
  rw [bus_match_rule_new_of_ok text tokens htok] at h
  rcases bus_match_rule_new_loop_spec tokens newRule with
    ⟨-, hl⟩ | ⟨-, r, hl, -, h2, h3, h4, h5, h6, -⟩
  · rw [hl] at h
    exact absurd h (by simp)
  · rw [hl] at h
    cases h
    refine ⟨?_, ?_, ?_, ?_, ?_⟩
    · rw [h2]; exact Option.or_none
    · rw [h3]; exact Option.or_none
    · rw [h4]; exact Option.or_none
    · rw [h5]; exact Option.or_none
    · rw [h6]; exact Option.or_none

theorem unset_or_nonempty_iff (o : Option (List Char)) :
    (o = none ∨ ∃ v, o = some v ∧ v ≠ []) ↔ o ≠ some [] := by
  cases o with
  | none => simp
  | some v => simp

/-- C15 as stated fails: on `sender=''` the constructor returns a rule whose
sender is set and empty. -/
theorem bus_match_rule_new_empty_field :
    ∃ rule, bus_match_rule_new "sender=''".toList = .ok rule ∧ rule.sender = some [] :=
  ⟨{ newRule with sender := some [] }, by decide, rfl⟩

/-- C15, as the code has it: the values are stored without validation, so
each of the fields sender, interface, member, path and destination of the rule
that `bus_match_rule_new` returns is `NULL` or holds a non-empty string
exactly when the last pair with that key does not have the empty value; after
a last pair such as `sender=''` the field is set and empty. -/
theorem bus_match_rule_new_fields_nonempty (text : List Char) (tokens : List Token)
    (rule : BusMatchRule) (htok : tokenize_rule text = .ok tokens)
    (hnew : bus_match_rule_new text = .ok rule) :
    ((rule.sender = none ∨ ∃ v, rule.sender = some v ∧ v ≠ []) ↔
      lastValue "sender".toList tokens ≠ some []) ∧
    ((rule.interface = none ∨ ∃ v, rule.interface = some v ∧ v ≠ []) ↔
      lastValue "interface".toList tokens ≠ some []) ∧
    ((rule.member = none ∨ ∃ v, rule.member = some v ∧ v ≠ []) ↔
      lastValue "member".toList tokens ≠ some []) ∧
    ((rule.path = none ∨ ∃ v, rule.path = some v ∧ v ≠ []) ↔
      lastValue "path".toList tokens ≠ some []) ∧
    ((rule.destination = none ∨ ∃ v, rule.destination = some v ∧ v ≠ []) ↔
      lastValue "destination".toList tokens ≠ some []) := by
  obtain ⟨h1, h2, h3, h4, h5⟩ := new_rule_string_fields text tokens rule htok hnew
  rw [h1, h2, h3, h4, h5]
  exact ⟨unset_or_nonempty_iff _, unset_or_nonempty_iff _, unset_or_nonempty_iff _,
    unset_or_nonempty_iff _, unset_or_nonempty_iff _⟩

/-- Witness of C15 (amended) on `sender='',sender='A',path=''`: the sender is
`A`, the path is set and empty. -/
theorem bus_match_rule_new_fields_nonempty_witness :
    ((some "A".toList = none ∨ ∃ v, some "A".toList = some v ∧ v ≠ []) ↔
      lastValue "sender".toList [(⟨"sender".toList, []⟩ : Token),
        ⟨"sender".toList, "A".toList⟩, ⟨"path".toList, []⟩] ≠ some []) ∧
    (((none : Option (List Char)) = none ∨
        ∃ v, (none : Option (List Char)) = some v ∧ v ≠ []) ↔
      lastValue "interface".toList [(⟨"sender".toList, []⟩ : Token),
        ⟨"sender".toList, "A".toList⟩, ⟨"path".toList, []⟩] ≠ some []) ∧
    (((none : Option (List Char)) = none ∨
        ∃ v, (none : Option (List Char)) = some v ∧ v ≠ []) ↔
      lastValue "member".toList [(⟨"sender".toList, []⟩ : Token),
        ⟨"sender".toList, "A".toList⟩, ⟨"path".toList, []⟩] ≠ some []) ∧
    (((some [] : Option (List Char)) = none ∨
        ∃ v, (some [] : Option (List Char)) = some v ∧ v ≠ []) ↔
      lastValue "path".toList [(⟨"sender".toList, []⟩ : Token),
        ⟨"sender".toList, "A".toList⟩, ⟨"path".toList, []⟩] ≠ some []) ∧
    (((none : Option (List Char)) = none ∨
        ∃ v, (none : Option (List Char)) = some v ∧ v ≠ []) ↔
      lastValue "destination".toList [(⟨"sender".toList, []⟩ : Token),
        ⟨"sender".toList, "A".toList⟩, ⟨"path".toList, []⟩] ≠ some []) :=
  bus_match_rule_new_fields_nonempty "sender='',sender='A',path=''".toList
    [⟨"sender".toList, []⟩, ⟨"sender".toList, "A".toList⟩, ⟨"path".toList, []⟩]
    { newRule with sender := some "A".toList, path := some [] }
    (by decide) (by decide)

/-! ## The loop budget and the tokens read before -/

/-- The result of the tokenizer loop does not depend on the budget, once the
budget is above the length of the text that is left. -/
theorem tokenize_loop_fuel_indep (f : Nat) :
    ∀ (f' : Nat) (p : List Char) (tokens : List Token), p.length < f → p.length < f' →
      tokenize_loop f p tokens = tokenize_loop f' p tokens := by
  induction f with
  | zero => intro f' p tokens hf; simp at hf
  | succ f ih =>
    intro f' p tokens hf hf'
    obtain ⟨g, rfl⟩ : ∃ g, f' = g + 1 := ⟨f' - 1, by omega⟩
    rw [tokenize_loop_succ, tokenize_loop_succ]
    split
    · rfl
    · split
      · rfl
      · rename_i key q hkey
        split
        · rfl
        · split
          · rfl
          · rfl
          · rfl
          · rename_i value q2 hfv
            split
            · rfl
            · have h1 := find_key_length _ _ _ hkey
              have h2 := SKIP_WHITE_length_le p
              have h3 := find_value_length _ _ _ hfv
              have h4 := SKIP_WHITE_length_le (SKIP_WHITE q).tail
              have h5 := tail_length_le (SKIP_WHITE q)
              have h6 := SKIP_WHITE_length_le q
              have h7 := next_cursor_length q2
              exact ih g _ _ (by omega) (by omega)

theorem prepend_prepend (a b : List Token) (r : Res (List Token)) :
    prepend a (prepend b r) = prepend (a ++ b) r := by
  cases r <;> simp [prepend]

theorem prepend_nil (r : Res (List Token)) : prepend [] r = r := by
  cases r <;> simp [prepend]

/-- The tokens read before only come first in the result: the loop started
with the tokens `acc` ends as the loop started with no token does. -/
theorem tokenize_loop_prepend (f : Nat) :
    ∀ (p : List Char) (acc : List Token),
      tokenize_loop f p acc = prepend acc (tokenize_loop f p []) := by
  induction f with
  | zero => intro p acc; rfl
  | succ f ih =>
    intro p acc
    rw [tokenize_loop_succ, tokenize_loop_succ]
    split
    · simp [prepend]
    · split
      · rfl
      · split
        · rfl
        · split
          · rfl
          · rfl
          · rfl
          · split
            · rfl
            · rw [ih _ (acc ++ _), ih _ ([] ++ _), prepend_prepend]
              simp

/-! ## White space around the pairs -/

theorem isWhite_ne_nul {c : Char} (hc : isWhite c = true) : c ≠ '\x00' := by
  intro h
  subst h
  exact absurd hc (by decide)

theorem isWhite_not_alphanum {c : Char} (hc : isWhite c = true) : c.isAlphanum = false := by
  rcases (isWhite_iff c).1 hc with h | h <;> subst h <;> decide

theorem peek_white_append (w x : List Char) (hw : ∀ c ∈ w, isWhite c = true) :
    isWhite (peek (w ++ x)) = true ∨ peek (w ++ x) = peek x := by
  cases w with
  | nil => exact Or.inr rfl
  | cons c w => exact Or.inl (hw c (List.mem_cons_self c w))

theorem tokenize_loop_white (w p : List Char) (hw : ∀ c ∈ w, isWhite c = true)
    (hp : (peek p).isAlpha = true) (fuel : Nat) (tokens : List Token) :
    tokenize_loop (fuel + 1) (w ++ p) tokens = tokenize_loop (fuel + 1) p tokens := by
  have h1 : peek (w ++ p) ≠ '\x00' := by
    rcases peek_white_append w p hw with h | h
    · exact isWhite_ne_nul h
    · rw [h]
      exact isAlpha_ne_nul hp
  rw [tokenize_loop_succ, tokenize_loop_succ, if_neg h1, if_neg (isAlpha_ne_nul hp),
    SKIP_WHITE_append w p hw]

theorem Spaced.whiteRuns_iff (s : Spaced) :
    s.whiteRuns = true ↔
      (∀ c ∈ s.beforeKey, MatchRule.isWhite c = true) ∧
      (∀ c ∈ s.beforeEq, MatchRule.isWhite c = true) ∧
      (∀ c ∈ s.beforeQuote, MatchRule.isWhite c = true) ∧
      (∀ c ∈ s.afterQuote, MatchRule.isWhite c = true) := by
  simp only [Spaced.whiteRuns, Bool.and_eq_true, List.all_eq_true, and_assoc]

/-- One iteration of the tokenizer on a well-formed pair written with white
space around its parts, followed by `r`: the white space is skipped and the
pair is read as one token. -/
theorem tokenize_loop_spaced (s : Spaced) (hs : s.whiteRuns = true)
    (hk : validKey s.token.key = true) (hv : ∀ c ∈ s.token.value, c ≠ '\x00')
    (r : List Char) (fuel : Nat) (tokens : List Token) :
    tokenize_loop (fuel + 1) (spacedPairText s ++ r) tokens =
      if peek (SKIP_WHITE r) ≠ ',' ∧ peek (SKIP_WHITE r) ≠ '\x00' then .null
      else
        tokenize_loop fuel
          (if peek (SKIP_WHITE r) = ',' then (SKIP_WHITE r).tail else SKIP_WHITE r)
          (tokens ++ [s.token]) := by
  obtain ⟨h1, h2, h3, h4⟩ := (Spaced.whiteRuns_iff s).1 hs
  have htext : spacedPairText s ++ r =
      s.beforeKey ++ (s.token.key ++ (s.beforeEq ++ '=' :: (s.beforeQuote ++
        '\'' :: (escapeValue s.token.value ++ '\'' :: (s.afterQuote ++ r))))) := by
    simp [spacedPairText]
  have hr : (peek (s.beforeEq ++ '=' :: (s.beforeQuote ++
      '\'' :: (escapeValue s.token.value ++ '\'' :: (s.afterQuote ++ r))))).isAlphanum
      = false := by
    rcases peek_white_append s.beforeEq ('=' :: (s.beforeQuote ++
      '\'' :: (escapeValue s.token.value ++ '\'' :: (s.afterQuote ++ r)))) h2 with h | h
    · exact isWhite_not_alphanum h
    · rw [h, peek_cons]
      decide
  rw [htext, tokenize_loop_white _ _ h1 (validKey_peek _ _ hk),
    tokenize_loop_key _ _ hk hr, SKIP_WHITE_append _ _ h2,
    SKIP_WHITE_cons_of_not _ _ (by decide), peek_cons, List.tail_cons,
    SKIP_WHITE_append _ _ h3, SKIP_WHITE_cons_of_not _ _ (by decide),
    find_value_quoted _ hv]
  simp only [ne_eq, not_true_eq_false, if_false]
  rw [SKIP_WHITE_append _ _ h4]

theorem spacedPairText_length (s : Spaced) : 3 ≤ (spacedPairText s).length := by
  simp [spacedPairText]
  omega

theorem spacedRuleText_length (ss : List Spaced) : ss.length ≤ (spacedRuleText ss).length := by
  induction ss with
  | nil => simp
  | cons s ss ih =>
    cases ss with
    | nil =>
      have := spacedPairText_length s
      simp only [spacedRuleText, List.length_singleton]
      omega
    | cons u ss =>
      have := spacedPairText_length s
      simp only [spacedRuleText, List.length_cons, List.length_append] at ih ⊢
      omega

theorem spacedRuleText_cons (s : Spaced) (ss : List Spaced) :
    spacedRuleText (s :: ss) =
      spacedPairText s ++ (if ss = [] then [] else ',' :: spacedRuleText ss) := by
  cases ss with
  | nil => simp [spacedRuleText]
  | cons u ss => simp [spacedRuleText]

theorem tokenize_loop_spacedRuleText (ss : List Spaced)
    (hss : ∀ s ∈ ss, s.whiteRuns = true ∧ validKey s.token.key = true ∧
      ∀ c ∈ s.token.value, c ≠ '\x00') :
    ∀ (fuel : Nat) (tokens : List Token), ss.length < fuel →
      tokenize_loop fuel (spacedRuleText ss) tokens = .ok (tokens ++ ss.map Spaced.token) := by
  induction ss with
  | nil =>
    intro fuel tokens hf
    obtain ⟨f, rfl⟩ : ∃ f, fuel = f + 1 := ⟨fuel - 1, by simp at hf; omega⟩
    simp [tokenize_loop_succ, spacedRuleText]
  | cons s ss ih =>
    intro fuel tokens hf
    obtain ⟨f, rfl⟩ : ∃ f, fuel = f + 1 := ⟨fuel - 1, by omega⟩
    have hs := hss s (List.mem_cons_self s ss)
    have ih' := ih (fun u hu => hss u (List.mem_cons_of_mem s hu)) f (tokens ++ [s.token])
      (by simp only [List.length_cons] at hf; omega)
    rw [spacedRuleText_cons, tokenize_loop_spaced s hs.1 hs.2.1 hs.2.2]
    by_cases hnil : ss = []
    · subst hnil
      simpa [SKIP_WHITE, spacedRuleText] using ih'
    · rw [if_neg hnil, SKIP_WHITE_cons_of_not _ _ (by decide)]
      simpa using ih'

/-- C13: white space is ignored.  For every list of well-formed pairs, each
written with arbitrary runs of spaces and tabs before the key, between the key
and the `=`, between the `=` and the opening quote and after the closing
quote, `tokenize_rule` returns the pairs in order: the same token sequence as
on the text written without that white space. -/
theorem tokenize_rule_white_space (items : List Spaced)
    (hwhite : ∀ s ∈ items, s.whiteRuns = true)
    (hkeys : ∀ s ∈ items, validKey s.token.key = true)
    (hvalues : ∀ s ∈ items, ∀ c ∈ s.token.value, c ≠ '\x00') :
    tokenize_rule (spacedRuleText items) = .ok (items.map Spaced.token) ∧
    tokenize_rule (spacedRuleText items)
      = tokenize_rule (ruleText (items.map Spaced.token)) := by
  have h1 : tokenize_rule (spacedRuleText items) = .ok (items.map Spaced.token) := by
    have h := tokenize_loop_spacedRuleText items
      (fun s hs => ⟨hwhite s hs, hkeys s hs, hvalues s hs⟩)
      ((spacedRuleText items).length + 1) []
      (Nat.lt_succ_of_le (spacedRuleText_length items))
    simpa [tokenize_rule] using h
  refine ⟨h1, ?_⟩
  rw [h1, tokenize_rule_ruleText]
  intro t ht
  obtain ⟨s, hs, rfl⟩ := List.mem_map.1 ht
  exact ⟨hkeys s hs, hvalues s hs⟩

/-- Witness of C13 on ` type = 'signal' ,	member	=	'a b'`. -/
theorem tokenize_rule_white_space_witness :
    spacedRuleText [⟨" ".toList, " ".toList, " ".toList, " ".toList,
        ⟨"type".toList, "signal".toList⟩⟩,
      ⟨"\t".toList, "\t".toList, "\t".toList, [], ⟨"member".toList, "a b".toList⟩⟩]
      = " type = 'signal' ,\tmember\t=\t'a b'".toList ∧
    tokenize_rule " type = 'signal' ,\tmember\t=\t'a b'".toList
      = .ok [⟨"type".toList, "signal".toList⟩, ⟨"member".toList, "a b".toList⟩] ∧
    tokenize_rule " type = 'signal' ,\tmember\t=\t'a b'".toList
      = tokenize_rule "type='signal',member='a b'".toList :=
  ⟨by decide,
    tokenize_rule_white_space [⟨" ".toList, " ".toList, " ".toList, " ".toList,
        ⟨"type".toList, "signal".toList⟩⟩,
      ⟨"\t".toList, "\t".toList, "\t".toList, [], ⟨"member".toList, "a b".toList⟩⟩]
      (by decide) (by decide) (by decide)⟩

/-! ## The cursor only moves forward -/

theorem SKIP_WHITE_suffix (p : List Char) : List.IsSuffix (SKIP_WHITE p) p := by
  rw [SKIP_WHITE_eq_dropWhile]
  exact List.dropWhile_suffix _

theorem find_key_suffix (p k q : List Char) (h : find_key p = some (k, q)) :
    List.IsSuffix q p := by
  have hs := (find_key_spec p k q h).2.1
  exact List.IsSuffix.trans ⟨k, hs.symm⟩ (SKIP_WHITE_suffix p)

theorem find_value_loop_suffix (n : Nat) :
    ∀ (p text v q : List Char), p.length ≤ n → find_value_loop text p = .ok (v, q) →
      List.IsSuffix q p := by
  induction n with
  | zero =>
    intro p text v q hn h
    cases p with
    | nil => simp [find_value_loop_nil] at h
    | cons c p => simp at hn
  | succ n ih =>
    intro p text v q hn h
    cases p with
    | nil => simp [find_value_loop_nil] at h
    | cons c p =>
      rw [find_value_loop_cons] at h
      simp only [List.length_cons, Nat.add_le_add_iff_right] at hn
      split at h
      · cases h
        exact List.suffix_cons c q
      · split at h
        · exact absurd h (by simp)
        · split at h
          · cases p with
            | nil => exact absurd h (by simp)
            | cons d p' =>
              simp only at h
              split at h
              · exact absurd h (by simp)
              · have := ih p' _ v q (by simp only [List.length_cons] at hn; omega) h
                exact List.IsSuffix.trans this
                  (List.IsSuffix.trans (List.suffix_cons d p') (List.suffix_cons c _))
          · exact List.IsSuffix.trans (ih p _ v q hn h) (List.suffix_cons c p)

theorem find_value_suffix (p v q : List Char) (h : find_value p = .ok (v, q)) :
    List.IsSuffix q p := by
  have hs := SKIP_WHITE_suffix p
  rw [find_value] at h
  split at h
  · exact absurd h (by simp)
  · rename_i c r hr
    rw [hr] at hs
    split at h
    · exact absurd h (by simp)
    · exact List.IsSuffix.trans (find_value_loop_suffix r.length r [] v q (Nat.le_refl _) h)
        (List.IsSuffix.trans (List.suffix_cons c r) hs)

theorem next_cursor_suffix (p : List Char) :
    List.IsSuffix (if peek (SKIP_WHITE p) = ',' then (SKIP_WHITE p).tail else SKIP_WHITE p)
      p := by
  split
  · exact List.IsSuffix.trans (List.tail_suffix _) (SKIP_WHITE_suffix p)
  · exact SKIP_WHITE_suffix p

/-- The cursor after one iteration that read a key and a value is further in
the text than before. -/
theorem iteration_suffix (p key q value q2 : List Char)
    (hkey : find_key (SKIP_WHITE p) = some (key, q))
    (hfv : find_value (SKIP_WHITE (SKIP_WHITE q).tail) = .ok (value, q2)) :
    List.IsSuffix q2 p ∧ q2.length < p.length := by
  have h1 := find_key_suffix _ _ _ hkey
  have h2 := find_value_suffix _ _ _ hfv
  have h3 := find_key_length _ _ _ hkey
  have h4 := find_value_length _ _ _ hfv
  have h5 := SKIP_WHITE_length_le p
  have h6 := SKIP_WHITE_length_le (SKIP_WHITE q).tail
  have h7 := tail_length_le (SKIP_WHITE q)
  have h8 := SKIP_WHITE_length_le q
  refine ⟨?_, by omega⟩
  exact List.IsSuffix.trans h2
    (List.IsSuffix.trans (SKIP_WHITE_suffix _)
      (List.IsSuffix.trans (List.tail_suffix _)
        (List.IsSuffix.trans (SKIP_WHITE_suffix _)
          (List.IsSuffix.trans h1 (SKIP_WHITE_suffix p)))))

/-- The loop of the tokenizer without its budget: one iteration, and the loop
again from the cursor that the iteration leaves. -/
theorem tokenize_from_step (p : List Char) (tokens : List Token) :
    tokenize_from p tokens =
      if peek p = '\x00' then .ok tokens
      else
        match find_key (SKIP_WHITE p) with
        | none => .null
        | some (key, p) =>
          if peek (SKIP_WHITE p) ≠ '=' then .null
          else
            match find_value (SKIP_WHITE (SKIP_WHITE p).tail) with
            | .null => .null
            | .undefined => .undefined
            | .nofuel => .nofuel
            | .ok (value, p) =>
              if peek (SKIP_WHITE p) ≠ ',' ∧ peek (SKIP_WHITE p) ≠ '\x00' then .null
              else
                tokenize_from
                  (if peek (SKIP_WHITE p) = ',' then (SKIP_WHITE p).tail else SKIP_WHITE p)
                  (tokens ++ [⟨key, value⟩]) := by
  rw [tokenize_from, tokenize_loop_succ]
  split
  · rfl
  · split
    · rfl
    · rename_i key q hkey
      split
      · rfl
      · split
        · rfl
        · rfl
        · rfl
        · rename_i value q2 hfv
          split
          · rfl
          · have h1 := (iteration_suffix p key q value q2 hkey hfv).2
            have h2 := next_cursor_length q2
            exact tokenize_loop_fuel_indep _ _ _ _ (by omega) (Nat.lt_succ_self _)

theorem tokenize_rule_eq_from (text : List Char) : tokenize_rule text = tokenize_from text [] :=
  rfl

theorem tokenize_from_prepend (p : List Char) (acc : List Token) :
    tokenize_from p acc = prepend acc (tokenize_from p []) :=
  tokenize_loop_prepend _ p acc

theorem tokenize_from_nil (tokens : List Token) : tokenize_from [] tokens = .ok tokens := by
  rw [tokenize_from_step, peek_nil, if_pos rfl]

/-! ## Text added after an accepted text -/

theorem SKIP_WHITE_append_of_ne_nil (p x : List Char) (h : SKIP_WHITE p ≠ []) :
    SKIP_WHITE (p ++ x) = SKIP_WHITE p ++ x := by
  induction p with
  | nil => exact absurd rfl h
  | cons c p ih =>
    rw [List.cons_append, SKIP_WHITE, SKIP_WHITE]
    rw [SKIP_WHITE] at h
    split
    · rename_i hc
      rw [if_pos hc] at h
      exact ih h
    · rfl

theorem SKIP_WHITE_append_of_nil (p x : List Char) (h : SKIP_WHITE p = []) :
    SKIP_WHITE (p ++ x) = SKIP_WHITE x := by
  induction p with
  | nil => rfl
  | cons c p ih =>
    rw [List.cons_append, SKIP_WHITE]
    rw [SKIP_WHITE] at h
    split
    · rename_i hc
      rw [if_pos hc] at h
      exact ih h
    · rename_i hc
      rw [if_neg hc] at h
      exact absurd h (by simp)

theorem find_key_skip (p : List Char) : find_key (SKIP_WHITE p) = find_key p := by
  rw [find_key, find_key, SKIP_WHITE_idem]

theorem find_value_skip (p : List Char) : find_value (SKIP_WHITE p) = find_value p := by
  rw [find_value, find_value, SKIP_WHITE_idem]

theorem find_key_append (p k q x : List Char) (h : find_key p = some (k, q))
    (hx : (peek x).isAlphanum = false) : find_key (p ++ x) = some (k, q ++ x) := by
  obtain ⟨hk, hs, hq⟩ := find_key_spec p k q h
  have hne : SKIP_WHITE p ≠ [] := by
    obtain ⟨c, cs, hkc, -⟩ := (validKey_iff k).1 hk
    rw [hs, hkc]
    simp
  have hpeek : (peek (q ++ x)).isAlphanum = false := by
    cases q with
    | nil => exact hx
    | cons d q => exact hq
  rw [← find_key_skip, SKIP_WHITE_append_of_ne_nil p x hne, hs, List.append_assoc]
  exact find_key_valid k (q ++ x) hk hpeek

theorem find_value_loop_append (n : Nat) :
    ∀ (p text v q x : List Char), p.length ≤ n → find_value_loop text p = .ok (v, q) →
      find_value_loop text (p ++ x) = .ok (v, q ++ x) := by
  induction n with
  | zero =>
    intro p text v q x hn h
    cases p with
    | nil => simp [find_value_loop_nil] at h
    | cons c p => simp at hn
  | succ n ih =>
    intro p text v q x hn h
    cases p with
    | nil => simp [find_value_loop_nil] at h
    | cons c p =>
      rw [find_value_loop_cons] at h
      rw [List.cons_append, find_value_loop_cons]
      simp only [List.length_cons, Nat.add_le_add_iff_right] at hn
      by_cases h1 : c = '\''
      · rw [if_pos h1] at h ⊢
        cases h
        rfl
      · rw [if_neg h1] at h ⊢
        by_cases h2 : c = '\x00'
        · rw [if_pos h2] at h
          exact absurd h (by simp)
        · rw [if_neg h2] at h ⊢
          by_cases h3 : c = '\\'
          · rw [if_pos h3] at h ⊢
            cases p with
            | nil => exact absurd h (by simp)
            | cons d p' =>
              simp only [List.cons_append] at h ⊢
              by_cases h4 : d = '\x00'
              · rw [if_pos h4] at h
                exact absurd h (by simp)
              · rw [if_neg h4] at h ⊢
                exact ih p' _ v q x (by simp only [List.length_cons] at hn; omega) h
          · rw [if_neg h3] at h ⊢
            exact ih p _ v q x hn h

theorem find_value_append (p v q x : List Char) (h : find_value p = .ok (v, q)) :
    find_value (p ++ x) = .ok (v, q ++ x) := by
  rw [find_value] at h
  split at h
  · exact absurd h (by simp)
  · rename_i c r hr
    split at h
    · exact absurd h (by simp)
    · rename_i hc
      have hne : SKIP_WHITE p ≠ [] := by rw [hr]; simp
      rw [find_value, SKIP_WHITE_append_of_ne_nil p x hne, hr, List.cons_append]
      simp only [hc, if_false]
      exact find_value_loop_append r.length r [] v q x (Nat.le_refl _) h

/-- One iteration on a text `p` that reads a key and a value, seen again on
`p ++ x`: the same key and the same value are read, and `x` is still to come
after what the iteration left of `p`. -/
theorem tokenize_from_append_step (p key q value q2 x : List Char) (tokens : List Token)
    (hp : peek p ≠ '\x00')
    (hkey : find_key (SKIP_WHITE p) = some (key, q))
    (heq : peek (SKIP_WHITE q) = '=')
    (hfv : find_value (SKIP_WHITE (SKIP_WHITE q).tail) = .ok (value, q2))
    (hx : (peek x).isAlphanum = false) :
    tokenize_from (p ++ x) tokens =
      if peek (SKIP_WHITE (q2 ++ x)) ≠ ',' ∧ peek (SKIP_WHITE (q2 ++ x)) ≠ '\x00' then .null
      else
        tokenize_from
          (if peek (SKIP_WHITE (q2 ++ x)) = ',' then (SKIP_WHITE (q2 ++ x)).tail
            else SKIP_WHITE (q2 ++ x))
          (tokens ++ [⟨key, value⟩]) := by
  have hpx : peek (p ++ x) ≠ '\x00' := by
    cases p with
    | nil => exact absurd rfl hp
    | cons c p => exact hp
  have hkey' : find_key (SKIP_WHITE (p ++ x)) = some (key, q ++ x) := by
    rw [find_key_skip] at hkey ⊢
    exact find_key_append p key q x hkey hx
  obtain ⟨q1, hq1⟩ : ∃ q1, SKIP_WHITE q = '=' :: q1 := by
    cases hq : SKIP_WHITE q with
    | nil =>
      rw [hq] at heq
      exact absurd heq (by decide)
    | cons d q1 =>
      rw [hq, peek_cons] at heq
      exact ⟨q1, by rw [heq]⟩
  have hsq : SKIP_WHITE (q ++ x) = '=' :: (q1 ++ x) := by
    rw [SKIP_WHITE_append_of_ne_nil q x (by rw [hq1]; simp), hq1]
    rfl
  have hfv' : find_value (SKIP_WHITE (q1 ++ x)) = .ok (value, q2 ++ x) := by
    rw [hq1, List.tail_cons, find_value_skip] at hfv
    rw [find_value_skip]
    exact find_value_append q1 value q2 x hfv
  rw [tokenize_from_step, if_neg hpx, hkey']
  simp only [hsq, peek_cons, List.tail_cons, ne_eq, not_true_eq_false, if_false, hfv']

theorem tokenize_from_comma (r : List Char) (tokens : List Token) :
    tokenize_from (',' :: r) tokens = .null := by
  have h : find_key (SKIP_WHITE (',' :: r)) = none := by
    apply find_key_none
    rw [SKIP_WHITE_idem, SKIP_WHITE_cons_of_not _ _ (by decide), peek_cons]
    decide
  rw [tokenize_from_step, peek_cons, if_neg (by decide), h]

/-- An accepted text `p` followed by `,` and a text `r`: either the loop
fails, or it goes on with `r` after the tokens of `p`. -/
theorem tokenize_from_append_comma (n : Nat) :
    ∀ (p : List Char) (acc res : List Token) (r : List Char), p.length ≤ n →
      '\x00' ∉ p → tokenize_from p acc = .ok res →
      tokenize_from (p ++ ',' :: r) acc = .null ∨
      tokenize_from (p ++ ',' :: r) acc = tokenize_from r res := by
  induction n with
  | zero =>
    intro p acc res r hn hnul h
    cases p with
    | nil => exact Or.inl (tokenize_from_comma r acc)
    | cons c p => simp at hn
  | succ n ih =>
    intro p acc res r hn hnul h
    cases p with
    | nil => exact Or.inl (tokenize_from_comma r acc)
    | cons c p' =>
      have hp : peek (c :: p') ≠ '\x00' := by
        rw [peek_cons]
        intro e
        exact hnul (by rw [e]; exact List.mem_cons_self _ _)
      rw [tokenize_from_step, if_neg hp] at h
      split at h
      · exact absurd h (by simp)
      · rename_i key q hkey
        split at h
        · exact absurd h (by simp)
        · rename_i heq
          split at h
          · exact absurd h (by simp)
          · exact absurd h (by simp)
          · exact absurd h (by simp)
          · rename_i value q2 hfv
            split at h
            · exact absurd h (by simp)
            · rename_i hsep
              have heq' : peek (SKIP_WHITE q) = '=' := not_not.1 heq
              obtain ⟨hsuf, hlen⟩ := iteration_suffix (c :: p') key q value q2 hkey hfv
              rw [tokenize_from_append_step (c :: p') key q value q2 (',' :: r) acc hp hkey
                heq' hfv (by rw [peek_cons]; decide)]
              cases hq2 : SKIP_WHITE q2 with
              | nil =>
                rw [hq2, peek_nil, if_neg (by decide), tokenize_from_nil] at h
                cases h
                rw [SKIP_WHITE_append_of_nil q2 _ hq2, SKIP_WHITE_cons_of_not ',' r (by decide),
                  peek_cons, if_neg (by simp), if_pos rfl, List.tail_cons]
                exact Or.inr rfl
              | cons d q3 =>
                have hsuf3 : List.IsSuffix (d :: q3) (c :: p') := by
                  rw [← hq2]
                  exact List.IsSuffix.trans (SKIP_WHITE_suffix q2) hsuf
                have hd0 : d ≠ '\x00' := by
                  intro e
                  exact hnul (by rw [← e]; exact hsuf3.mem (List.mem_cons_self d q3))
                have hd : d = ',' := by
                  rw [hq2, peek_cons] at hsep
                  by_contra hne
                  exact hsep ⟨hne, hd0⟩
                subst hd
                rw [hq2, peek_cons, if_pos rfl, List.tail_cons] at h
                rw [SKIP_WHITE_append_of_ne_nil q2 _ (by rw [hq2]; simp), hq2,
                  List.cons_append, peek_cons, if_neg (by simp), if_pos rfl, List.tail_cons]
                have hsuf4 : List.IsSuffix q3 (c :: p') :=
                  List.IsSuffix.trans (List.suffix_cons _ q3) hsuf3
                have hlen3 : q3.length ≤ n := by
                  have h1 := SKIP_WHITE_length_le q2
                  rw [hq2] at h1
                  simp only [List.length_cons] at h1 hlen hn
                  omega
                exact ih q3 _ res r hlen3 (fun hm => hnul (hsuf4.mem hm)) h

/-- C11: no partial result.  When `tokenize_rule` accepts the text `s` and
returns `NULL` on the text `r`, it returns `NULL` on `s`, a comma and `r` as a
whole: the tokens of `s` are not returned. -/
theorem tokenize_rule_no_partial (s r : List Char) (tokens : List Token)
    (hnul : '\x00' ∉ s) (hs : tokenize_rule s = .ok tokens) (hr : tokenize_rule r = .null) :
    tokenize_rule (s ++ ',' :: r) = .null := by
  rw [tokenize_rule_eq_from] at hs hr ⊢
  rcases tokenize_from_append_comma s.length s [] tokens r (Nat.le_refl _) hnul hs with h | h
  · exact h
  · rw [h, tokenize_from_prepend, hr]
    rfl

/-- Witness of C11 on `type='signal'` followed by `,` and `member=Changed`. -/
theorem tokenize_rule_no_partial_witness :
    tokenize_rule "type='signal',member=Changed".toList = .null :=
  tokenize_rule_no_partial "type='signal'".toList "member=Changed".toList
    [⟨"type".toList, "signal".toList⟩] (by decide) (by decide) (by decide)

/-! ## Commas -/

/-- A well-formed pair followed by a comma: the pair is read and the loop
goes on right after the comma. -/
theorem tokenize_from_pair_comma (t : Token) (hk : validKey t.key = true)
    (hv : ∀ c ∈ t.value, c ≠ '\x00') (r : List Char) (tokens : List Token) :
    tokenize_from (pairText t ++ ',' :: r) tokens = tokenize_from r (tokens ++ [t]) := by
  have hlen : r.length < (pairText t ++ ',' :: r).length := by
    simp only [List.length_append, List.length_cons]
    omega
  rw [tokenize_from, tokenize_loop_pair t hk hv, SKIP_WHITE_cons_of_not _ _ (by decide),
    peek_cons, if_neg (by simp), if_pos rfl, List.tail_cons]
  exact tokenize_loop_fuel_indep _ _ _ _ hlen (Nat.lt_succ_self _)

theorem tokenize_from_ruleText_comma (ts : List Token) (hne : ts ≠ [])
    (hts : ∀ t ∈ ts, validKey t.key = true ∧ ∀ c ∈ t.value, c ≠ '\x00') :
    ∀ (r : List Char) (tokens : List Token),
      tokenize_from (ruleText ts ++ ',' :: r) tokens = tokenize_from r (tokens ++ ts) := by
  induction ts with
  | nil => exact absurd rfl hne
  | cons t ts ih =>
    intro r tokens
    have ht := hts t (List.mem_cons_self t ts)
    cases ts with
    | nil =>
      rw [ruleText]
      exact tokenize_from_pair_comma t ht.1 ht.2 r tokens
    | cons u ts =>
      have ih' := ih (by simp) (fun v hv => hts v (List.mem_cons_of_mem t hv)) r
        (tokens ++ [t])
      rw [ruleText, List.append_assoc, List.cons_append,
        tokenize_from_pair_comma t ht.1 ht.2, ih']
      simp

/-- An iteration of the loop that is entered adds a token: a successful run
from a cursor that is not at the end returns at least one token. -/
theorem tokenize_from_ne_nil (p : List Char) (more : List Token) (hp : peek p ≠ '\x00')
    (h : tokenize_from p [] = .ok more) : more ≠ [] := by
  rw [tokenize_from_step, if_neg hp] at h
  split at h
  · exact absurd h (by simp)
  · split at h
    · exact absurd h (by simp)
    · split at h
      · exact absurd h (by simp)
      · exact absurd h (by simp)
      · exact absurd h (by simp)
      · split at h
        · exact absurd h (by simp)
        · rw [tokenize_from_prepend] at h
          cases hres : tokenize_from _ [] with
          | ok ts =>
            rw [hres] at h
            simp only [prepend, List.nil_append, List.singleton_append, Res.ok.injEq] at h
            rw [← h]
            simp
          | null => rw [hres] at h; exact absurd h (by simp [prepend])
          | undefined => rw [hres] at h; exact absurd h (by simp [prepend])
          | nofuel => rw [hres] at h; exact absurd h (by simp [prepend])

/-- C17 as stated fails: the text `a='b',`, which ends with a comma after its
last pair, is accepted. -/
theorem tokenize_rule_trailing_comma_accepted :
    tokenize_rule "a='b',".toList = .ok [⟨"a".toList, "b".toList⟩] ∧
    tokenize_rule "a='b',".toList ≠ .null := by
  decide

/-- C17, as the code has it: a comma ends a pair.  In an accepted text, a
comma that follows an accepted text `s` is followed either by the end of the
text or by an accepted text with at least one further pair, whose tokens come
after those of `s`; and the text of well-formed pairs with a comma after the
last pair is accepted, with the tokens of these pairs. -/
theorem tokenize_rule_commas :
    (∀ (s rest : List Char) (tokens res : List Token), '\x00' ∉ s → '\x00' ∉ rest →
      tokenize_rule s = .ok tokens → tokenize_rule (s ++ ',' :: rest) = .ok res →
      ∃ more, tokenize_rule rest = .ok more ∧ res = tokens ++ more ∧
        (rest = [] ∨ more ≠ [])) ∧
    (∀ pairs : List Token, pairs ≠ [] →
      (∀ t ∈ pairs, validKey t.key = true ∧ ∀ c ∈ t.value, c ≠ '\x00') →
      tokenize_rule (ruleText pairs ++ [',']) = .ok pairs) := by
  constructor
  · intro s rest tokens res hs0 hrest0 hs h
    rw [tokenize_rule_eq_from] at hs h
    rcases tokenize_from_append_comma s.length s [] tokens rest (Nat.le_refl _) hs0 hs
      with h' | h'
    · rw [h'] at h
      exact absurd h (by simp)
    · rw [h', tokenize_from_prepend] at h
      cases hres : tokenize_from rest [] with
      | ok more =>
        rw [hres] at h
        simp only [prepend, Res.ok.injEq] at h
        refine ⟨more, hres, h.symm, ?_⟩
        cases rest with
        | nil => exact Or.inl rfl
        | cons c rest' =>
          right
          apply tokenize_from_ne_nil (c :: rest') more _ hres
          rw [peek_cons]
          intro e
          exact hrest0 (by rw [e]; exact List.mem_cons_self _ _)
      | null => rw [hres] at h; exact absurd h (by simp [prepend])
      | undefined => rw [hres] at h; exact absurd h (by simp [prepend])
      | nofuel => rw [hres] at h; exact absurd h (by simp [prepend])
  · intro pairs hne hpairs
    rw [tokenize_rule_eq_from, tokenize_from_ruleText_comma pairs hne hpairs,
      tokenize_from_nil]
    rfl

/-- Witness of C17 (amended) on `a='b',c='d'` and on `a='b',c='d',`. -/
theorem tokenize_rule_commas_witness :
    (∃ more, tokenize_rule "c='d'".toList = .ok more ∧
      [(⟨"a".toList, "b".toList⟩ : Token), ⟨"c".toList, "d".toList⟩]
        = [⟨"a".toList, "b".toList⟩] ++ more ∧
      ("c='d'".toList = [] ∨ more ≠ [])) ∧
    tokenize_rule "a='b',c='d',".toList
      = .ok [⟨"a".toList, "b".toList⟩, ⟨"c".toList, "d".toList⟩] :=
  ⟨tokenize_rule_commas.1 "a='b'".toList "c='d'".toList [⟨"a".toList, "b".toList⟩]
      [⟨"a".toList, "b".toList⟩, ⟨"c".toList, "d".toList⟩] (by decide) (by decide)
      (by decide) (by decide),
    tokenize_rule_commas.2 [⟨"a".toList, "b".toList⟩, ⟨"c".toList, "d".toList⟩]
      (by decide) (by decide)⟩

/-! ## Reads past the end of the text -/

theorem backslashAtEnd_cons (c : Char) (p : List Char) :
    backslashAtEnd (c :: p) = ((c = '\\' && peek p = '\x00') || backslashAtEnd p) := rfl

theorem backslashAtEnd_append (pre p : List Char) (h : backslashAtEnd p = true) :
    backslashAtEnd (pre ++ p) = true := by
  induction pre with
  | nil => exact h
  | cons c pre ih =>
    rw [List.cons_append, backslashAtEnd_cons, ih]
    simp

theorem backslashAtEnd_of_suffix (q p : List Char) (hs : List.IsSuffix q p)
    (h : backslashAtEnd q = true) : backslashAtEnd p = true := by
  obtain ⟨pre, rfl⟩ := hs
  exact backslashAtEnd_append pre q h

/-- In a text without NUL, a backslash directly followed by the end of the
text is the last character of the text. -/
theorem backslashAtEnd_getLast (p : List Char) (hnul : '\x00' ∉ p)
    (h : backslashAtEnd p = true) : p.getLast? = some '\\' := by
  induction p with
  | nil => simp [backslashAtEnd] at h
  | cons c p ih =>
    rw [backslashAtEnd_cons] at h
    have hnul' : '\x00' ∉ p := fun hm => hnul (List.mem_cons_of_mem c hm)
    cases p with
    | nil =>
      simp only [backslashAtEnd, peek_nil, decide_True, Bool.and_true, Bool.or_false,
        decide_eq_true_eq] at h
      rw [h]
      rfl
    | cons d p' =>
      have hd : d ≠ '\x00' := fun e => hnul' (by rw [e]; exact List.mem_cons_self _ _)
      rw [peek_cons] at h
      simp only [hd, decide_False, Bool.and_false, Bool.false_or] at h
      rw [List.getLast?_cons_cons]
      exact ih hnul' h

theorem find_value_loop_undefined (n : Nat) :
    ∀ (p text : List Char), p.length ≤ n → find_value_loop text p = .undefined →
      backslashAtEnd p = true := by
  induction n with
  | zero =>
    intro p text hn h
    cases p with
    | nil => simp [find_value_loop_nil] at h
    | cons c p => simp at hn
  | succ n ih =>
    intro p text hn h
    cases p with
    | nil => simp [find_value_loop_nil] at h
    | cons c p =>
      rw [find_value_loop_cons] at h
      simp only [List.length_cons, Nat.add_le_add_iff_right] at hn
      rw [backslashAtEnd_cons]
      split at h
      · exact absurd h (by simp)
      · split at h
        · exact absurd h (by simp)
        · split at h
          · rename_i hc
            cases p with
            | nil => simp [hc]
            | cons d p' =>
              simp only at h
              split at h
              · rename_i hd
                simp [hc, hd]
              · have h1 := ih p' _ (by simp only [List.length_cons] at hn; omega) h
                rw [backslashAtEnd_cons, h1]
                simp
          · rw [ih p _ hn h]
            simp

theorem find_value_undefined (p : List Char) (h : find_value p = .undefined) :
    backslashAtEnd p = true := by
  have hs := SKIP_WHITE_suffix p
  rw [find_value] at h
  split at h
  · exact absurd h (by simp)
  · rename_i c r hr
    rw [hr] at hs
    split at h
    · exact absurd h (by simp)
    · have h1 := find_value_loop_undefined r.length r [] (Nat.le_refl _) h
      exact backslashAtEnd_of_suffix _ _ (List.IsSuffix.trans (List.suffix_cons c r) hs) h1

/-- The tokenizer leaves the text only through a backslash that is directly
followed by the end of the text. -/
theorem tokenize_loop_undefined (fuel : Nat) :
    ∀ (p : List Char) (tokens : List Token), tokenize_loop fuel p tokens = .undefined →
      backslashAtEnd p = true := by
  induction fuel with
  | zero =>
    intro p tokens h
    simp [tokenize_loop] at h
  | succ fuel ih =>
    intro p tokens h
    rw [tokenize_loop_succ] at h
    split at h
    · exact absurd h (by simp)
    · split at h
      · exact absurd h (by simp)
      · rename_i key q hkey
        split at h
        · exact absurd h (by simp)
        · split at h
          · exact absurd h (by simp)
          · rename_i hfv
            have h1 := find_value_undefined _ hfv
            have hs : List.IsSuffix (SKIP_WHITE (SKIP_WHITE q).tail) p :=
              List.IsSuffix.trans (SKIP_WHITE_suffix _)
                (List.IsSuffix.trans (List.tail_suffix _)
                  (List.IsSuffix.trans (SKIP_WHITE_suffix _)
                    (List.IsSuffix.trans (find_key_suffix _ _ _ hkey) (SKIP_WHITE_suffix p))))
            exact backslashAtEnd_of_suffix _ _ hs h1
          · exact absurd h (by simp)
          · rename_i value q2 hfv
            split at h
            · exact absurd h (by simp)
            · have h1 := ih _ _ h
              have hs := (iteration_suffix p key q value q2 hkey hfv).1
              exact backslashAtEnd_of_suffix _ _
                (List.IsSuffix.trans (next_cursor_suffix q2) hs) h1

/-- C16: reads bounded by the input.  On a text without NUL that does not end
with a backslash the cursor of `tokenize_rule` never leaves the text; but on
`k='a\`, where a backslash is the last character of the text inside a value,
`find_value` moves the cursor past the terminating NUL and reads on. -/
theorem tokenize_rule_reads (text : List Char) (hnul : '\x00' ∉ text)
    (hlast : text.getLast? ≠ some '\\') :
    tokenize_rule text ≠ .undefined ∧
    find_value "'a\\".toList = .undefined ∧
    tokenize_rule "k='a\\".toList = .undefined ∧
    tokenize_rule "type='signal',k='\\".toList = .undefined := by
  refine ⟨?_, by decide, by decide, by decide⟩
  intro h
  exact hlast (backslashAtEnd_getLast text hnul (tokenize_loop_undefined _ _ _ h))

/-- Witness of C16 on `type='signal',member='a\\'`, which ends with a quote. -/
theorem tokenize_rule_reads_witness :
    tokenize_rule "type='signal',member='a\\\\'".toList ≠ .undefined ∧
    find_value "'a\\".toList = .undefined ∧
    tokenize_rule "k='a\\".toList = .undefined ∧
    tokenize_rule "type='signal',k='\\".toList = .undefined :=
  tokenize_rule_reads "type='signal',member='a\\\\'".toList (by decide) (by decide)

end MatchRule
